import Mathlib

/-!
Shallow embedding of the track-selection and filename-templating core of
SubScalpelMKV (Go).  Strings are modelled as Lean `String`s (lists of
characters); Go's byte-length coincides with character count on the ASCII
data handled here.  Case folding is modelled for ASCII, which is exact for
every language code, format token and placeholder in the program's tables.
Go map literals are modelled as association lists in source order, and Go
map iteration is modelled as iteration in that insertion order (Go leaves
the order unspecified; the source's own design notes call for first
insertion order).
-/

namespace SubScalpel

/-! ### Character and string primitives (ASCII models of Go's strings package) -/

/-- Left brace character, written via its code point. -/
def lbrace : Char := Char.ofNat 123

/-- Right brace character, written via its code point. -/
def rbrace : Char := Char.ofNat 125

/-- ASCII lower-casing of a single character (model of Go case folding on ASCII). -/
def asciiLowerChar (c : Char) : Char :=
  if 65 ≤ c.toNat ∧ c.toNat ≤ 90 then Char.ofNat (c.toNat + 32) else c

/-- ASCII decimal digit test (Go `'0' <= c && c <= '9'`). -/
def isDigitChar (c : Char) : Bool := 48 ≤ c.toNat && c.toNat ≤ 57

/-- ASCII lower-case letter test. -/
def isLowerAlpha (c : Char) : Bool := 97 ≤ c.toNat && c.toNat ≤ 122

/-- `strings.ToLower`, restricted to ASCII folding, on character lists. -/
def asciiLowerL (l : List Char) : List Char := l.map asciiLowerChar

/-- `strings.ToLower`, restricted to ASCII folding. -/
def asciiLower (s : String) : String := ⟨asciiLowerL s.data⟩

/-- `strings.EqualFold` on character lists (ASCII simple case folding). -/
def eqFoldL (a b : List Char) : Bool := asciiLowerL a == asciiLowerL b

/-- `strings.EqualFold` (ASCII simple case folding). -/
def strEqualFold (a b : String) : Bool := eqFoldL a.data b.data

/-- Go `unicode.IsSpace` restricted to the ASCII white-space characters. -/
def goIsSpace (c : Char) : Bool :=
  c = ' ' || c = '\t' || c = '\n' || c = '\x0b' || c = '\x0c' || c = '\r'

/-- `strings.TrimSpace` on character lists. -/
def trimSpaceL (l : List Char) : List Char :=
  ((l.dropWhile goIsSpace).reverse.dropWhile goIsSpace).reverse

/-- `strings.TrimSpace`. -/
def trimSpace (s : String) : String := ⟨trimSpaceL s.data⟩

/-- `strings.Split` with a one-character separator, on character lists.
Always returns a non-empty list of segments. -/
def splitOnCharL (sep : Char) : List Char → List (List Char)
  | [] => [[]]
  | c :: rest =>
    if c = sep then [] :: splitOnCharL sep rest
    else
      match splitOnCharL sep rest with
      | [] => [[c]]
      | seg :: segs => (c :: seg) :: segs

/-- `strings.Join` with a one-character separator, on character lists. -/
def joinWithChar (sep : Char) : List (List Char) → List Char
  | [] => []
  | [s] => s
  | s :: rest => s ++ sep :: joinWithChar sep rest

/-- `strings.Split(input, ",")`. -/
def splitOnComma (s : String) : List String :=
  (splitOnCharL ',' s.data).map String.mk

/-- Numeric value of a list of decimal digit characters. -/
def digitsToNat (ds : List Char) : Nat :=
  ds.foldl (fun acc c => acc * 10 + (c.toNat - 48)) 0

/-- `strconv.Atoi`: optional sign, one or more decimal digits, and the value
must fit in a signed 64-bit integer (Go returns an error otherwise). -/
def atoi? (s : String) : Option Int :=
  match s.data with
  | [] => none
  | c :: rest =>
    let p : Bool × List Char :=
      if c = '+' then (false, rest)
      else if c = '-' then (true, rest)
      else (false, c :: rest)
    if p.2.isEmpty || !(p.2.all isDigitChar) then none
    else
      let v : Int := if p.1 then -(digitsToNat p.2 : Int) else (digitsToNat p.2 : Int)
      if v < -(2 ^ 63) || 2 ^ 63 - 1 < v then none else some v

/-- Does `pat` start the list `s`? -/
def startsWithL : List Char → List Char → Bool
  | [], _ => true
  | _ :: _, [] => false
  | a :: pa, b :: sb => a = b && startsWithL pa sb

/-- Fuel-driven scanner behind `replaceAllL`; the fuel only needs to bound
the length of the list being scanned. -/
def replaceAllGo (pat v : List Char) : Nat → List Char → List Char
  | _, [] => []
  | 0, s => s
  | fuel + 1, c :: rest =>
    if pat ≠ [] ∧ startsWithL pat (c :: rest) = true then
      v ++ replaceAllGo pat v fuel ((c :: rest).drop pat.length)
    else
      c :: replaceAllGo pat v fuel rest

/-- `strings.ReplaceAll` on character lists: leftmost, non-overlapping
occurrences of `pat` are replaced by `v`.  Callers in this program never pass
an empty `pat`; an empty `pat` leaves the input unchanged here. -/
def replaceAllL (pat v s : List Char) : List Char := replaceAllGo pat v s.length s

/-- `strings.ReplaceAll`. -/
def stringReplaceAll (s pat v : String) : String :=
  ⟨replaceAllL pat.data v.data s.data⟩

/-- Fuel-driven scanner behind `countOccurL`. -/
def countOccurGo (pat : List Char) : Nat → List Char → Nat
  | _, [] => 0
  | 0, _ => 0
  | fuel + 1, c :: rest =>
    if pat ≠ [] ∧ startsWithL pat (c :: rest) = true then
      1 + countOccurGo pat fuel ((c :: rest).drop pat.length)
    else
      countOccurGo pat fuel rest

/-- Number of leftmost, non-overlapping occurrences of `pat` in a list. -/
def countOccurL (pat s : List Char) : Nat := countOccurGo pat s.length s

/-- Number of leftmost, non-overlapping occurrences of `pat` in a string. -/
def countOccur (pat s : String) : Nat := countOccurL pat.data s.data

/-- `strings.TrimSuffix`. -/
def trimSuffixStr (s suf : String) : String :=
  if suf.data.isSuffixOf s.data then ⟨s.data.take (s.data.length - suf.data.length)⟩ else s

/-- `strings.Trim(s, cutset)` for the cutset `" ."` used by the program:
trim leading and trailing spaces and dots. -/
def trimSpaceDot (s : String) : String :=
  ⟨((s.data.dropWhile fun c => c = ' ' || c = '.').reverse.dropWhile
      fun c => c = ' ' || c = '.').reverse⟩

/-- `path/filepath.Base` for slash-separated paths: the last element of the
path, after removing trailing slashes; `"."` for an empty path and `"/"`
when the path is all slashes. -/
def pathBase (s : String) : String :=
  if s = "" then "."
  else
    let l := (s.data.reverse.dropWhile (· = '/'))
    if l = [] then "/"
    else ⟨(l.takeWhile (· ≠ '/')).reverse⟩

/-- `path/filepath.Ext`: the suffix of the final path element starting at its
last dot, or the empty string when that element has no dot. -/
def pathExt (s : String) : String :=
  let revName := s.data.reverse.takeWhile (· ≠ '/')
  if revName.any (· = '.') then ⟨((revName.takeWhile (· ≠ '.')) ++ ['.']).reverse⟩
  else ""

/-- Fuel-driven digit accumulator behind `natDigitChars`; the fuel only
needs to bound the number of digits. -/
def natDigitCharsGo : Nat → Nat → List Char → List Char
  | 0, _, acc => acc
  | _ + 1, 0, acc => acc
  | fuel + 1, m + 1, acc =>
    natDigitCharsGo fuel ((m + 1) / 10) (Char.ofNat ((m + 1) % 10 + 48) :: acc)

/-- Decimal digit characters of a natural number, most significant first. -/
def natDigitChars (n : Nat) : List Char :=
  if n = 0 then ['0'] else natDigitCharsGo n n []

/-- `fmt.Sprintf("%03d", n)`: decimal rendering zero-padded to a total width
of three characters, with the sign counted in the width. -/
def formatTrackNo (n : Int) : String :=
  let ds := natDigitChars n.natAbs
  if n < 0 then
    ⟨'-' :: List.replicate (3 - (ds.length + 1)) '0' ++ ds⟩
  else
    ⟨List.replicate (3 - ds.length) '0' ++ ds⟩

/-! ### Data model (package `model`) -/

/-- Properties of an MKV track (`model.MKVTrackProperties`). -/
structure MKVTrackProperties where
  CodecId : String
  TrackName : String
  Encoding : String
  Language : String
  Number : Int
  Forced : Bool
  Default : Bool
  Enabled : Bool
  TextSubtitles : Bool
  NumberOfIndexEntries : Int
  Duration : String
  UId : Int
  deriving Repr, DecidableEq

/-- A track in an MKV file (`model.MKVTrack`). -/
structure MKVTrack where
  Codec : String
  Id : Int
  Type' : String            -- `Type` in Go; `Type` is reserved in Lean
  Properties : MKVTrackProperties
  deriving Repr, DecidableEq

/-- `model.LanguageCodeMapping`: the ISO 639-1 → ISO 639-2/B table, as an
association list in the order of the Go map literal. -/
def LanguageCodeMapping : List (String × String) := [
  ("en", "eng"), ("es", "spa"), ("fr", "fre"), ("de", "ger"), ("it", "ita"), ("pt", "por"),
  ("ru", "rus"), ("ja", "jpn"), ("ko", "kor"), ("zh", "chi"), ("ar", "ara"), ("hi", "hin"),
  ("th", "tha"), ("vi", "vie"), ("tr", "tur"), ("pl", "pol"), ("nl", "dut"), ("sv", "swe"),
  ("da", "dan"), ("no", "nor"), ("fi", "fin"), ("cs", "cze"), ("hu", "hun"), ("ro", "rum"),
  ("bg", "bul"), ("hr", "hrv"), ("sk", "slo"), ("sl", "slv"), ("et", "est"), ("lv", "lav"),
  ("lt", "lit"), ("el", "gre"), ("he", "heb"), ("fa", "per"), ("ur", "urd"), ("bn", "ben"),
  ("ta", "tam"), ("te", "tel"), ("ml", "mal"), ("kn", "kan"), ("gu", "guj"), ("pa", "pan"),
  ("mr", "mar"), ("ne", "nep"), ("si", "sin"), ("my", "bur"), ("km", "khm"), ("lo", "lao"),
  ("ka", "geo"), ("am", "amh"), ("sw", "swa"), ("zu", "zul"), ("af", "afr"), ("is", "ice"),
  ("ga", "gle"), ("cy", "wel"), ("eu", "baq"), ("ca", "cat"), ("gl", "glg"), ("mt", "mlt"),
  ("sq", "alb"), ("mk", "mac"), ("be", "bel"), ("uk", "ukr"), ("aa", "aar"), ("ab", "abk"),
  ("ae", "ave"), ("ak", "aka"), ("an", "arg"), ("as", "asm"), ("av", "ava"), ("ay", "aym"),
  ("az", "aze"), ("ba", "bak"), ("bh", "bih"), ("bi", "bis"), ("bm", "bam"), ("bo", "tib"),
  ("br", "bre"), ("bs", "bos"), ("ce", "che"), ("ch", "cha"), ("co", "cos"), ("cr", "cre"),
  ("cu", "chu"), ("cv", "chv"), ("dv", "div"), ("dz", "dzo"), ("ee", "ewe"), ("eo", "epo"),
  ("ff", "ful"), ("fj", "fij"), ("fo", "fao"), ("fy", "fry"), ("gd", "gla"), ("gn", "grn"),
  ("gv", "glv"), ("ha", "hau"), ("ho", "hmo"), ("ht", "hat"), ("hz", "her"), ("ia", "ina"),
  ("id", "ind"), ("ie", "ile"), ("ig", "ibo"), ("ii", "iii"), ("ik", "ipk"), ("io", "ido"),
  ("iu", "iku"), ("jv", "jav"), ("kg", "kon"), ("ki", "kik"), ("kj", "kua"), ("kk", "kaz"),
  ("kl", "kal"), ("kr", "kau"), ("ks", "kas"), ("ku", "kur"), ("kv", "kom"), ("kw", "cor"),
  ("ky", "kir"), ("la", "lat"), ("lb", "ltz"), ("lg", "lug"), ("li", "lim"), ("ln", "lin"),
  ("lu", "lub"), ("mg", "mlg"), ("mh", "mah"), ("mi", "mao"), ("mn", "mon"), ("mo", "mol"),
  ("ms", "may"), ("na", "nau"), ("nb", "nob"), ("nd", "nde"), ("ng", "ndo"), ("nn", "nno"),
  ("nr", "nbl"), ("nv", "nav"), ("ny", "nya"), ("oc", "oci"), ("oj", "oji"), ("om", "orm"),
  ("or", "ori"), ("os", "oss"), ("pi", "pli"), ("ps", "pus"), ("qu", "que"), ("rm", "roh"),
  ("rn", "run"), ("rw", "kin"), ("sa", "san"), ("sc", "srd"), ("sd", "snd"), ("se", "sme"),
  ("sg", "sag"), ("sh", "srp"), ("sm", "smo"), ("sn", "sna"), ("so", "som"), ("sr", "srp"),
  ("ss", "ssw"), ("st", "sot"), ("su", "sun"), ("tg", "tgk"), ("ti", "tir"), ("tk", "tuk"),
  ("tl", "tgl"), ("tn", "tsn"), ("to", "ton"), ("ts", "tso"), ("tt", "tat"), ("tw", "twi"),
  ("ty", "tah"), ("ug", "uig"), ("uz", "uzb"), ("ve", "ven"), ("vo", "vol"), ("wa", "wln"),
  ("wo", "wol"), ("xh", "xho"), ("yi", "yid"), ("yo", "yor"), ("za", "zha")
]

/-- Go `LanguageCodeMapping[k]` existence plus value: first entry with the
given key (keys are unique in a Go map literal). -/
def langMappingLookup (k : String) : Option String :=
  (LanguageCodeMapping.find? (fun p => p.1 = k)).map (·.2)

/-- `model.MatchesLanguageFilter`: exact case-insensitive match, or a
2-letter filter whose mapped 3-letter code matches the track language, or a
3-letter filter resolved through the first table entry whose 3-letter code
matches it. -/
def MatchesLanguageFilter (trackLanguage filterLanguage : String) : Bool :=
  if filterLanguage = "" then true
  else if strEqualFold trackLanguage filterLanguage then true
  else if filterLanguage.data.length = 2 then
    match langMappingLookup (asciiLower filterLanguage) with
    | some mappedCode => strEqualFold trackLanguage mappedCode
    | none => false
  else if filterLanguage.data.length = 3 then
    match LanguageCodeMapping.find? (fun p => strEqualFold filterLanguage p.2) with
    | some p => strEqualFold trackLanguage p.1
    | none => false
  else false

/-- `model.TrackExclusion`: exclusion criteria.  (The struct itself lives in
the revision of the model package used by the current selection code; its
three fields are exactly those read by `MatchesTrackExclusion` and written by
the exclusion parsers.) -/
structure TrackExclusion where
  LanguageCodes : List String := []
  TrackNumbers : List Int := []
  FormatFilters : List String := []
  deriving Repr, DecidableEq

/-- `model.TrackSelection`: the user's selection criteria. -/
structure TrackSelection where
  LanguageCodes : List String := []
  TrackNumbers : List Int := []
  FormatFilters : List String := []
  Exclusions : TrackExclusion := {}
  deriving Repr, DecidableEq

/-- `model.DefaultOutputTemplate`. -/
def DefaultOutputTemplate : String :=
  "\x7bbasename\x7d.\x7blanguage\x7d.\x7btrackno\x7d.\x7btrackname\x7d.\x7bforced\x7d.\x7bdefault\x7d.\x7bextension\x7d"

/-- `model.SubtitleExtensionByCodec`, as an association list in the order of
the Go map literal. -/
def SubtitleExtensionByCodec : List (String × String) := [
  ("S_TEXT/UTF8", "srt"), ("S_TEXT/ASS", "ass"), ("S_TEXT/SSA", "ssa"),
  ("S_TEXT/WEBVTT", "vtt"), ("S_TEXT/USF", "usf"), ("S_ASS", "ass"), ("S_SSA", "ssa"),
  ("S_HDMV/PGS", "sup"), ("S_VOBSUB", "sub"), ("S_DVBSUB", "sub"), ("S_IMAGE/BMP", "bmp"),
  ("S_KATE", "kate"), ("S_TEXT/PLAIN", "txt"), ("S_HDMV/TEXTST", "sup")
]

/-- Go map indexing `SubtitleExtensionByCodec[codecId]`, returning the zero
value `""` when the codec is absent. -/
def subtitleExtLookup (codecId : String) : String :=
  ((SubtitleExtensionByCodec.find? (fun p => p.1 = codecId)).map (·.2)).getD ""

/-- `model.GetSubtitleFormatFromCodec`: table lookup with `"srt"` fallback. -/
def GetSubtitleFormatFromCodec (codecId : String) : String :=
  match SubtitleExtensionByCodec.find? (fun p => p.1 = codecId) with
  | some p => p.2
  | none => "srt"

/-- `model.MatchesFormatFilter`: case-insensitive equality between the
track's format and the filter token; an empty filter matches everything. -/
def MatchesFormatFilter (codecId formatFilter : String) : Bool :=
  if formatFilter = "" then true
  else strEqualFold (GetSubtitleFormatFromCodec codecId) formatFilter

/-! ### Track matching (package `util`) -/

/-- `util.MatchesTrackExclusion`: an empty exclusion filter excludes nothing;
otherwise the track is excluded when its number, language or format matches
any exclusion entry. -/
def MatchesTrackExclusion (track : MKVTrack) (exclusion : TrackExclusion) : Bool :=
  if exclusion.LanguageCodes.isEmpty && exclusion.TrackNumbers.isEmpty
      && exclusion.FormatFilters.isEmpty then false
  else if exclusion.TrackNumbers.any (fun trackNum => track.Properties.Number == trackNum) then true
  else if exclusion.LanguageCodes.any
      (fun langCode => MatchesLanguageFilter track.Properties.Language langCode) then true
  else exclusion.FormatFilters.any
      (fun formatFilter => MatchesFormatFilter track.Properties.CodecId formatFilter)

/-- `util.MatchesTrackSelection`: exclusion veto first; an otherwise empty
selection matches everything; otherwise additive OR over track numbers,
languages and formats. -/
def MatchesTrackSelection (track : MKVTrack) (selection : TrackSelection) : Bool :=
  if MatchesTrackExclusion track selection.Exclusions then false
  else if selection.LanguageCodes.isEmpty && selection.TrackNumbers.isEmpty
      && selection.FormatFilters.isEmpty then true
  else if selection.TrackNumbers.any (fun trackNum => track.Properties.Number == trackNum) then true
  else if selection.LanguageCodes.any
      (fun langCode => MatchesLanguageFilter track.Properties.Language langCode) then true
  else selection.FormatFilters.any
      (fun formatFilter => MatchesFormatFilter track.Properties.CodecId formatFilter)

/-! ### Filename templating (package `util`) -/

/-- `util.sanitizeFileName`: replace `/ \ : |` by `-`, strip `* ? " < >`,
then trim leading and trailing spaces and dots.  The nine independent
single-character replacements are applied in the order of the Go map
literal (their effects are order-independent). -/
def sanitizeFileName (filename : String) : String :=
  if filename = "" then ""
  else
    let replaced :=
      [("/", "-"), ("\\", "-"), (":", "-"), ("*", ""), ("?", ""),
       ("\"", ""), ("<", ""), (">", ""), ("|", "-")].foldl
        (fun acc pv => stringReplaceAll acc pv.1 pv.2) filename
    trimSpaceDot replaced

/-- `util.cleanupFileName` on character lists: split on dots, drop empty
segments, rejoin. -/
def cleanupL (l : List Char) : List Char :=
  joinWithChar '.' ((splitOnCharL '.' l).filter (· ≠ []))

/-- `util.cleanupFileName`: split on dots, drop empty segments, rejoin. -/
def cleanupFileName (filename : String) : String :=
  ⟨cleanupL filename.data⟩

/-- Does the list contain two adjacent dots? -/
def hasDoubleDot : List Char → Bool
  | a :: b :: t => (a = '.' && b = '.') || hasDoubleDot (b :: t)
  | _ => false

/-- The replacement table of `BuildFileNameFromTemplate`, in the order of the
Go map literal (Go map iteration order is unspecified; the values inserted
never contain a placeholder, so the order does not affect the result). -/
def templateReplacements (baseName : String) (track : MKVTrack)
    (trackNo subtitleExt : String) : List (String × String) :=
  [("\x7bbasename\x7d", baseName),
   ("\x7blanguage\x7d", track.Properties.Language),
   ("\x7btrackno\x7d", trackNo),
   ("\x7btrackname\x7d", sanitizeFileName track.Properties.TrackName),
   ("\x7bforced\x7d", if track.Properties.Forced then "forced" else ""),
   ("\x7bdefault\x7d", if track.Properties.Default then "default" else ""),
   ("\x7bextension\x7d", subtitleExt)]

/-- `util.BuildFileNameFromTemplate`: substitute every placeholder, then run
the dot cleanup. -/
def BuildFileNameFromTemplate (inputFileName : String) (track : MKVTrack)
    (template : String) : String :=
  let template := if template = "" then DefaultOutputTemplate else template
  let fileName := pathBase inputFileName
  let extension := pathExt fileName
  let baseName := trimSuffixStr fileName extension
  let subtitleExt0 := subtitleExtLookup track.Properties.CodecId
  let subtitleExt1 := if subtitleExt0 = "" then "srt" else subtitleExt0
  let subtitleExt := if track.Properties.CodecId = "S_VOBSUB" then "sub" else subtitleExt1
  let trackNo := formatTrackNo track.Properties.Number
  let result := (templateReplacements baseName track trackNo subtitleExt).foldl
    (fun acc pv => stringReplaceAll acc pv.1 pv.2) template
  cleanupFileName result

/-! ### Selection parsing (package `cli`) -/

/-- Validity test for a language token, as inlined in the parsers: a
2-letter token must be a key of the mapping (lower-cased), a 3-letter token
must case-insensitively equal some 3-letter value. -/
def isValidLanguageToken (item : String) : Bool :=
  if item.data.length = 2 then
    LanguageCodeMapping.any (fun p => p.1 = asciiLower item)
  else if item.data.length = 3 then
    LanguageCodeMapping.any (fun p => strEqualFold item p.2)
  else false

/-- Validity test for a format token, as inlined in the parsers: the
lower-cased token must equal one of the extension-table values. -/
def isValidFormatToken (lowerItem : String) : Bool :=
  SubtitleExtensionByCodec.any (fun p => lowerItem = p.2)

/-- One loop iteration of `cli.ParseTrackSelection`: trim the item, then
classify it as track number, language code or format filter, in that order;
unknown tokens are skipped with a warning. -/
def classifyStep (selection : TrackSelection) (rawItem : String) : TrackSelection :=
  let item := trimSpace rawItem
  if item = "" then selection
  else
    match atoi? item with
    | some trackNum => { selection with TrackNumbers := selection.TrackNumbers ++ [trackNum] }
    | none =>
      if isValidLanguageToken item then
        { selection with LanguageCodes := selection.LanguageCodes ++ [item] }
      else
        let lowerItem := asciiLower item
        if isValidFormatToken lowerItem then
          { selection with FormatFilters := selection.FormatFilters ++ [lowerItem] }
        else selection

/-- `cli.ParseTrackSelection`. -/
def ParseTrackSelection (input : String) : TrackSelection :=
  if input = "" then {} else (splitOnComma input).foldl classifyStep {}

/-- One loop iteration of `cli.ParseTrackSelectionWithValidation`: like
`classifyStep`, but a numeric token must appear in the available track list,
and rejected tokens are collected instead of only warned about. -/
def classifyStepV (availableTracks : List Int)
    (acc : TrackSelection × List String) (rawItem : String) : TrackSelection × List String :=
  let item := trimSpace rawItem
  if item = "" then acc
  else
    match atoi? item with
    | some trackNum =>
      if availableTracks.any (fun validTrack => trackNum == validTrack) then
        ({ acc.1 with TrackNumbers := acc.1.TrackNumbers ++ [trackNum] }, acc.2)
      else (acc.1, acc.2 ++ [item])
    | none =>
      if isValidLanguageToken item then
        ({ acc.1 with LanguageCodes := acc.1.LanguageCodes ++ [item] }, acc.2)
      else
        let lowerItem := asciiLower item
        if isValidFormatToken lowerItem then
          ({ acc.1 with FormatFilters := acc.1.FormatFilters ++ [lowerItem] }, acc.2)
        else (acc.1, acc.2 ++ [item])

/-- `cli.ParseTrackSelectionWithValidation`: returns the parsed selection and
the list of invalid items. -/
def ParseTrackSelectionWithValidation (input : String) (availableTracks : List Int) :
    TrackSelection × List String :=
  if input = "" then ({}, [])
  else (splitOnComma input).foldl (classifyStepV availableTracks) ({}, [])

/-! ### Extraction planning (package `mkv`) -/

/-- The track-selection phase of `mkv.CreateSubtitlesMKS` (the pure prefix of
the function, before any external process is involved): collect the ids of
the subtitle tracks accepted by the matcher; refuse with the function's
error message when none match.  The metadata query is abstracted by passing
the track list, and the matcher is a parameter exactly as in the source. -/
def createSubtitlesMKSSelect (tracks : List MKVTrack) (selection : TrackSelection)
    (matchesTrackSelection : MKVTrack → TrackSelection → Bool) : Except String (List Int) :=
  let selectedTrackIDs :=
    (tracks.filter (fun track =>
      track.Type' = "subtitles" && matchesTrackSelection track selection)).map (·.Id)
  if selectedTrackIDs.isEmpty then
    Except.error "no subtitle tracks match the specified selection criteria"
  else Except.ok selectedTrackIDs

/-! ### Brace bookkeeping for the template round-trip (claim C8) -/

/-- Is the character list free of brace characters? -/
def braceFreeL (l : List Char) : Bool :=
  l.all (fun c => !(c == lbrace) && !(c == rbrace))

/-- Is the string free of brace characters? -/
def braceFree (s : String) : Bool := braceFreeL s.data

/-- The seven recognized placeholders, as character lists, in the order of
the replacement-map literal. -/
def tokBasename : List Char := ("\x7bbasename\x7d" : String).data
def tokLanguage : List Char := ("\x7blanguage\x7d" : String).data
def tokTrackno : List Char := ("\x7btrackno\x7d" : String).data
def tokTrackname : List Char := ("\x7btrackname\x7d" : String).data
def tokForced : List Char := ("\x7bforced\x7d" : String).data
def tokDefault : List Char := ("\x7bdefault\x7d" : String).data
def tokExtension : List Char := ("\x7bextension\x7d" : String).data

/-- All seven placeholder tokens. -/
def placeholderTokens : List (List Char) :=
  [tokBasename, tokLanguage, tokTrackno, tokTrackname, tokForced, tokDefault, tokExtension]

/-- A braced token: an opening brace, a brace-free interior, a closing
brace. -/
def IsBracedToken (p : List Char) : Prop :=
  ∃ w, braceFreeL w = true ∧ p = lbrace :: w ++ [rbrace]

/-- `TokenInterleaving ps s` states that `s` consists of the braced tokens
`ps`, in order, separated (and surrounded) by brace-free text. -/
inductive TokenInterleaving : List (List Char) → List Char → Prop where
  | nil : ∀ a : List Char, braceFreeL a = true → TokenInterleaving [] a
  | cons : ∀ (a p : List Char) (ps : List (List Char)) (rest : List Char),
      braceFreeL a = true → IsBracedToken p → TokenInterleaving ps rest →
      TokenInterleaving (p :: ps) (a ++ p ++ rest)

/-! ### Sample data used in concrete scenarios -/

/-- A subtitle track with the given language, number and codec; the fields
not involved in selection or naming are fixed harmlessly. -/
def mkSubtitleTrack (lang : String) (num : Int) (codec : String) : MKVTrack :=
  { Codec := "", Id := num, Type' := "subtitles",
    Properties := { CodecId := codec, TrackName := "", Encoding := "", Language := lang,
                    Number := num, Forced := false, Default := false, Enabled := true,
                    TextSubtitles := true, NumberOfIndexEntries := 0, Duration := "",
                    UId := 0 } }

/-- Scenario track matched through its language. -/
def sampleTrackEng : MKVTrack := mkSubtitleTrack "eng" 1 "S_HDMV/PGS"

/-- Scenario track matched through its number. -/
def sampleTrack14 : MKVTrack := mkSubtitleTrack "fre" 14 "S_HDMV/PGS"

/-- Scenario track matched through its format. -/
def sampleTrackSrt : MKVTrack := mkSubtitleTrack "ger" 2 "S_TEXT/UTF8"

/-- Scenario track matched by nothing in `"eng,14,srt"`. -/
def sampleTrackOther : MKVTrack := mkSubtitleTrack "chi" 4 "S_HDMV/PGS"


set_option maxRecDepth 10000

/-! ### Generic helper lemmas -/

theorem char_toNat_ofNat (n : Nat) (h : n < 0xd800) : (Char.ofNat n).toNat = n := by
  unfold Char.ofNat
  rw [dif_pos (Or.inl h)]
  rfl

theorem asciiLowerChar_idem (c : Char) : asciiLowerChar (asciiLowerChar c) = asciiLowerChar c := by
  unfold asciiLowerChar
  by_cases h : 65 ≤ c.toNat ∧ c.toNat ≤ 90
  · rw [if_pos h, if_neg]
    rw [char_toNat_ofNat (c.toNat + 32) (by omega)]
    omega
  · rw [if_neg h, if_neg h]

theorem asciiLowerL_idem (l : List Char) : asciiLowerL (asciiLowerL l) = asciiLowerL l := by
  simp [asciiLowerL, List.map_map, Function.comp_def, asciiLowerChar_idem]

theorem eqFoldL_lower_left (a b : List Char) : eqFoldL (asciiLowerL a) b = eqFoldL a b := by
  simp [eqFoldL, asciiLowerL_idem]

theorem eqFoldL_lower_right (a b : List Char) : eqFoldL a (asciiLowerL b) = eqFoldL a b := by
  simp [eqFoldL, asciiLowerL_idem]

theorem findCongr {α : Type} {p q : α → Bool} (h : ∀ a, p a = q a) :
    ∀ l : List α, l.find? p = l.find? q := by
  intro l
  induction l with
  | nil => rfl
  | cons a t ih => simp only [List.find?, h a, ih]

/-! ### Claim C1: exclusion is an absolute veto -/

/-- Claim C1: whenever a track matches the exclusion filter,
`MatchesTrackSelection` returns false, no matter what the inclusion part of
the filter holds — exclusion is evaluated first and always wins. -/
theorem claim_C1_exclusion_veto (track : MKVTrack) (selection : TrackSelection)
    (h : MatchesTrackExclusion track selection.Exclusions = true) :
    MatchesTrackSelection track selection = false := by
  simp [MatchesTrackSelection, h]

/-- Witness for C1 at a concrete excluded track. -/
theorem claim_C1_exclusion_veto_witness :
    MatchesTrackExclusion sampleTrackEng { TrackNumbers := [(1 : Int)] } = true ∧
    MatchesTrackSelection sampleTrackEng
      { LanguageCodes := ["eng"], Exclusions := { TrackNumbers := [(1 : Int)] } } = false :=
  ⟨by decide,
   claim_C1_exclusion_veto sampleTrackEng
     { LanguageCodes := ["eng"], Exclusions := { TrackNumbers := [(1 : Int)] } } (by decide)⟩

/-! ### Claim C3: the empty filter selects everything -/

/-- Claim C3: with all three selection sets empty and an empty exclusion
filter, `MatchesTrackSelection` accepts every track. -/
theorem claim_C3_empty_selects_all (track : MKVTrack) (selection : TrackSelection)
    (h1 : selection.LanguageCodes = []) (h2 : selection.TrackNumbers = [])
    (h3 : selection.FormatFilters = [])
    (h4 : selection.Exclusions.LanguageCodes = [])
    (h5 : selection.Exclusions.TrackNumbers = [])
    (h6 : selection.Exclusions.FormatFilters = []) :
    MatchesTrackSelection track selection = true := by
  simp [MatchesTrackSelection, MatchesTrackExclusion, h1, h2, h3, h4, h5, h6]

/-- Witness for C3 at a concrete track and the empty filter. -/
theorem claim_C3_empty_selects_all_witness :
    MatchesTrackSelection sampleTrackOther {} = true :=
  claim_C3_empty_selects_all sampleTrackOther {} rfl rfl rfl rfl rfl rfl

/-! ### Claim C9: extraction is refused when nothing matches -/

/-- Claim C9: when no subtitle track of the file is accepted by the matcher,
the selection phase of `CreateSubtitlesMKS` returns its error instead of
proceeding. -/
theorem claim_C9_refuses_empty_match (tracks : List MKVTrack) (selection : TrackSelection)
    (h : ∀ t ∈ tracks, t.Type' = "subtitles" → MatchesTrackSelection t selection = false) :
    createSubtitlesMKSSelect tracks selection MatchesTrackSelection =
      Except.error "no subtitle tracks match the specified selection criteria" := by
  unfold createSubtitlesMKSSelect
  have hf : tracks.filter
      (fun track => track.Type' = "subtitles" && MatchesTrackSelection track selection) = [] := by
    rw [List.filter_eq_nil_iff]
    intro t ht
    simp only [Bool.and_eq_true, decide_eq_true_eq, not_and]
    intro hty
    simp [h t ht hty]
  simp [hf]

/-- Witness for C9: a non-subtitle track plus a subtitle track missed by the
selection produce the refusal error. -/
theorem claim_C9_refuses_empty_match_witness :
    createSubtitlesMKSSelect
      [{ Codec := "", Id := 0, Type' := "video",
         Properties := (mkSubtitleTrack "und" 1 "V_MPEG4").Properties },
       mkSubtitleTrack "eng" 2 "S_TEXT/UTF8"]
      { TrackNumbers := [(99 : Int)] } MatchesTrackSelection =
      Except.error "no subtitle tracks match the specified selection criteria" :=
  claim_C9_refuses_empty_match _ _ (by decide)

/-! ### Claim C2: additive OR across track numbers, languages and formats -/

/-- Claim C2: for a track not vetoed by the exclusion filter and a non-empty
selection filter, `MatchesTrackSelection` is exactly the OR of the three
category matches; and in the scenario `"eng,14,srt"` the language track, the
number-14 track and the srt-format track are selected while an unrelated
track is not. -/
theorem claim_C2_additive_or :
    (∀ (track : MKVTrack) (selection : TrackSelection),
      MatchesTrackExclusion track selection.Exclusions = false →
      (selection.LanguageCodes.isEmpty && selection.TrackNumbers.isEmpty
        && selection.FormatFilters.isEmpty) = false →
      MatchesTrackSelection track selection =
        (selection.TrackNumbers.any (fun trackNum => track.Properties.Number == trackNum)
          || selection.LanguageCodes.any
              (fun langCode => MatchesLanguageFilter track.Properties.Language langCode)
          || selection.FormatFilters.any
              (fun formatFilter => MatchesFormatFilter track.Properties.CodecId formatFilter)))
    ∧ (MatchesTrackSelection sampleTrackEng (ParseTrackSelection "eng,14,srt") = true
      ∧ MatchesTrackSelection sampleTrack14 (ParseTrackSelection "eng,14,srt") = true
      ∧ MatchesTrackSelection sampleTrackSrt (ParseTrackSelection "eng,14,srt") = true
      ∧ MatchesTrackSelection sampleTrackOther (ParseTrackSelection "eng,14,srt") = false) := by
  constructor
  · intro track selection hex hne
    unfold MatchesTrackSelection
    rw [hex]
    simp only [Bool.false_eq_true, if_false, hne]
    cases hn : selection.TrackNumbers.any (fun trackNum => track.Properties.Number == trackNum)
    · cases hl : selection.LanguageCodes.any
          (fun langCode => MatchesLanguageFilter track.Properties.Language langCode)
      · simp [hn, hl]
      · simp [hn, hl]
    · simp [hn]
  · decide

/-- Witness for C2 at a concrete non-excluded track and non-empty filter. -/
theorem claim_C2_additive_or_witness :
    MatchesTrackSelection sampleTrackSrt { LanguageCodes := ["eng"], TrackNumbers := [(2 : Int)] } =
      (([(2 : Int)].any (fun trackNum => sampleTrackSrt.Properties.Number == trackNum))
        || (["eng"].any
            (fun langCode => MatchesLanguageFilter sampleTrackSrt.Properties.Language langCode))
        || (([] : List String).any
            (fun formatFilter =>
              MatchesFormatFilter sampleTrackSrt.Properties.CodecId formatFilter))) :=
  claim_C2_additive_or.1 sampleTrackSrt
    { LanguageCodes := ["eng"], TrackNumbers := [(2 : Int)] } (by decide) (by decide)

/-! ### Claim C4: language table pairs and case-insensitivity -/

/-- C4 as stated is false: the table maps both `"sh"` and `"sr"` to `"srp"`,
and the reverse scan of `MatchesLanguageFilter` stops at the first entry
whose 3-letter code matches, which is `("sh", "srp")`; so the table pair
`("sr", "srp")` fails in the 2-letter-track direction. -/
theorem claim_C4_counterexample :
    ("sr", "srp") ∈ LanguageCodeMapping ∧ MatchesLanguageFilter "sr" "srp" = false := by
  constructor
  · decide
  · decide

/-- `MatchesLanguageFilter` is unchanged by ASCII-lower-casing both
arguments. -/
theorem matchesLanguageFilter_lower (t f : String) :
    MatchesLanguageFilter (asciiLower t) (asciiLower f) = MatchesLanguageFilter t f := by
  unfold MatchesLanguageFilter
  by_cases hf : f = ""
  · subst hf
    rfl
  · have hfl : asciiLower f ≠ "" := by
      intro hcon
      apply hf
      have : asciiLowerL f.data = [] := congrArg String.data hcon
      have : f.data = [] := List.map_eq_nil_iff.mp this
      cases f
      simp_all
    rw [if_neg hf, if_neg hfl]
    have heq : strEqualFold (asciiLower t) (asciiLower f) = strEqualFold t f := by
      simp [strEqualFold, asciiLower, eqFoldL_lower_left, eqFoldL_lower_right]
    rw [heq]
    have hlen : (asciiLower f).data.length = f.data.length := by
      simp [asciiLower, asciiLowerL]
    rw [hlen]
    have hll : asciiLower (asciiLower f) = asciiLower f := by
      simp [asciiLower, asciiLowerL_idem]
    rw [hll]
    have hfind :
        LanguageCodeMapping.find? (fun p => strEqualFold (asciiLower f) p.2) =
        LanguageCodeMapping.find? (fun p => strEqualFold f p.2) := by
      apply findCongr
      intro a
      simp [strEqualFold, asciiLower, eqFoldL_lower_left]
    rw [hfind]
    have hfold : ∀ x : String, strEqualFold (asciiLower t) x = strEqualFold t x := by
      intro x
      simp [strEqualFold, asciiLower, eqFoldL_lower_left]
    by_cases h2 : f.data.length = 2
    · rw [if_pos h2, if_pos h2]
      cases langMappingLookup (asciiLower f) with
      | none => rfl
      | some mappedCode => simp [hfold]
    · rw [if_neg h2, if_neg h2]
      by_cases h3 : f.data.length = 3
      · rw [if_pos h3, if_pos h3]
        cases LanguageCodeMapping.find? (fun p => strEqualFold f p.2) with
        | none => rfl
        | some p => simp [hfold]
      · rw [if_neg h3, if_neg h3]

/-- Claim C4, amended: every table pair matches with the 3-letter code as
the track language; every table pair except `("sr", "srp")` (whose 3-letter
code is shared with the earlier entry `("sh", "srp")`) also matches with the
2-letter code as the track language; and lower-casing either argument of
`MatchesLanguageFilter` never changes its result. -/
theorem claim_C4_language_pairs_amended :
    (∀ p ∈ LanguageCodeMapping, MatchesLanguageFilter p.2 p.1 = true)
    ∧ (∀ p ∈ LanguageCodeMapping, p ≠ ("sr", "srp") → MatchesLanguageFilter p.1 p.2 = true)
    ∧ (∀ t f t' f' : String, asciiLower t = asciiLower t' → asciiLower f = asciiLower f' →
        MatchesLanguageFilter t f = MatchesLanguageFilter t' f') := by
  refine ⟨by decide, by decide, ?_⟩
  intro t f t' f' ht hf
  rw [← matchesLanguageFilter_lower t f, ← matchesLanguageFilter_lower t' f', ht, hf]

/-- Witness for C4 at the concrete pair `("en", "eng")` and a concrete case
change. -/
theorem claim_C4_language_pairs_amended_witness :
    MatchesLanguageFilter "eng" "en" = true ∧ MatchesLanguageFilter "en" "eng" = true ∧
    MatchesLanguageFilter "EnG" "eN" = MatchesLanguageFilter "eng" "en" :=
  ⟨claim_C4_language_pairs_amended.1 ("en", "eng") (by decide),
   claim_C4_language_pairs_amended.2.1 ("en", "eng") (by decide) (by decide),
   claim_C4_language_pairs_amended.2.2 "EnG" "eN" "eng" "en" (by decide) (by decide)⟩

/-! ### Parsing lemmas shared by claims C5 and C6 -/

theorem atoi_empty : atoi? "" = none := rfl

theorem atoi_some_ne_empty {s : String} {n : Int} (h : atoi? s = some n) : s ≠ "" := by
  intro hc
  subst hc
  simp [atoi_empty] at h

theorem validFormat_atoi_none {s : String} (h : isValidFormatToken s = true) :
    atoi? s = none := by
  simp only [isValidFormatToken, List.any_eq_true, decide_eq_true_eq] at h
  obtain ⟨p, hp, he⟩ := h
  subst he
  revert hp
  revert p
  decide

/-- A successful `atoi?` forces the first character to be a sign or digit. -/
theorem atoi_some_head {s : String} {n : Int} (h : atoi? s = some n) :
    ∃ c rest, s.data = c :: rest ∧ (c = '+' ∨ c = '-' ∨ isDigitChar c = true) := by
  cases hd : s.data with
  | nil => rw [atoi?, hd] at h; exact absurd h (by simp)
  | cons c rest =>
    refine ⟨c, rest, rfl, ?_⟩
    by_cases hp : c = '+'
    · exact Or.inl hp
    · by_cases hm : c = '-'
      · exact Or.inr (Or.inl hm)
      · refine Or.inr (Or.inr ?_)
        rw [atoi?, hd] at h
        simp only [hp, hm, if_false] at h
        by_cases hcond : ((c :: rest).isEmpty || !((c :: rest).all isDigitChar)) = true
        · rw [if_pos hcond] at h; exact absurd h (by simp)
        · have hall : (c :: rest).all isDigitChar = true := by
            cases hall2 : (c :: rest).all isDigitChar
            · exact absurd (by simp [hall2]) hcond
            · rfl
          simp only [List.all_cons, Bool.and_eq_true] at hall
          exact hall.1

/-- Sign and digit characters are not lower-case letters, even after ASCII
lower-casing. -/
theorem signDigit_not_lowerAlpha {c : Char}
    (h : c = '+' ∨ c = '-' ∨ isDigitChar c = true) :
    isLowerAlpha (asciiLowerChar c) = false := by
  have hn : ¬(65 ≤ c.toNat ∧ c.toNat ≤ 90) := by
    rcases h with h | h | h
    · subst h; decide
    · subst h; decide
    · simp only [isDigitChar, Bool.and_eq_true, decide_eq_true_eq] at h; omega
  rw [asciiLowerChar, if_neg hn]
  rcases h with h | h | h
  · subst h; decide
  · subst h; decide
  · simp only [isDigitChar, Bool.and_eq_true, decide_eq_true_eq] at h
    simp only [isLowerAlpha, Bool.and_eq_false_iff, decide_eq_false_iff_not]
    left
    omega

/-- Lower-case ASCII words are fixed by ASCII lower-casing. -/
theorem asciiLowerL_of_lowerAlpha {l : List Char} (h : l.all isLowerAlpha = true) :
    asciiLowerL l = l := by
  induction l with
  | nil => rfl
  | cons d t ih =>
    simp only [List.all_cons, Bool.and_eq_true] at h
    have hd : asciiLowerChar d = d := by
      rw [asciiLowerChar, if_neg]
      have := h.1
      simp only [isLowerAlpha, Bool.and_eq_true, decide_eq_true_eq] at this
      omega
    simp only [asciiLowerL, List.map_cons, hd]
    have := ih h.2
    simp only [asciiLowerL] at this
    rw [this]

/-- Every key and every value of the language table is a lower-case ASCII
word. -/
theorem langTable_lower :
    ∀ p ∈ LanguageCodeMapping,
      p.1.data.all isLowerAlpha = true ∧ p.2.data.all isLowerAlpha = true := by
  decide

/-- A valid language token never parses as an integer. -/
theorem validLanguage_atoi_none {s : String} (h : isValidLanguageToken s = true) :
    atoi? s = none := by
  cases hv : atoi? s with
  | none => rfl
  | some n =>
    exfalso
    obtain ⟨c, rest, hdata, hc⟩ := atoi_some_head hv
    have hlow : asciiLowerL s.data = asciiLowerChar c :: asciiLowerL rest := by
      simp [asciiLowerL, hdata]
    unfold isValidLanguageToken at h
    by_cases h2 : s.data.length = 2
    · rw [if_pos h2, List.any_eq_true] at h
      obtain ⟨p, hp, he⟩ := h
      have he' : p.1 = asciiLower s := of_decide_eq_true he
      have hkey := (langTable_lower p hp).1
      have hpd : p.1.data = asciiLowerChar c :: asciiLowerL rest := by
        rw [he']
        simpa [asciiLower] using hlow
      rw [hpd] at hkey
      simp only [List.all_cons, Bool.and_eq_true] at hkey
      rw [signDigit_not_lowerAlpha hc] at hkey
      exact absurd hkey.1 (by simp)
    · rw [if_neg h2] at h
      by_cases h3 : s.data.length = 3
      · rw [if_pos h3, List.any_eq_true] at h
        obtain ⟨p, hp, he⟩ := h
        have hval := (langTable_lower p hp).2
        have hfold : asciiLowerL s.data = asciiLowerL p.2.data := by
          simpa [strEqualFold, eqFoldL] using he
        rw [asciiLowerL_of_lowerAlpha hval] at hfold
        have hpd : p.2.data = asciiLowerChar c :: asciiLowerL rest := by
          rw [← hfold, hlow]
        rw [hpd] at hval
        simp only [List.all_cons, Bool.and_eq_true] at hval
        rw [signDigit_not_lowerAlpha hc] at hval
        exact absurd hval.1 (by simp)
      · rw [if_neg h3] at h
        exact absurd h (by simp)

/-- The four possible outcomes of one parsing step of `ParseTrackSelection`. -/
theorem classifyStep_shape (selection : TrackSelection) (rawItem : String) :
    ((trimSpace rawItem = "" ∨ atoi? (trimSpace rawItem) = none)
      ∧ classifyStep selection rawItem = selection)
    ∨ (∃ n, atoi? (trimSpace rawItem) = some n ∧
        classifyStep selection rawItem =
          { selection with TrackNumbers := selection.TrackNumbers ++ [n] })
    ∨ (atoi? (trimSpace rawItem) = none ∧ isValidLanguageToken (trimSpace rawItem) = true ∧
        classifyStep selection rawItem =
          { selection with LanguageCodes := selection.LanguageCodes ++ [trimSpace rawItem] })
    ∨ (atoi? (trimSpace rawItem) = none ∧
        isValidFormatToken (asciiLower (trimSpace rawItem)) = true ∧
        classifyStep selection rawItem =
          { selection with
              FormatFilters := selection.FormatFilters ++ [asciiLower (trimSpace rawItem)] }) := by
  unfold classifyStep
  by_cases hi : trimSpace rawItem = ""
  · rw [if_pos hi]
    exact Or.inl ⟨Or.inl hi, rfl⟩
  · rw [if_neg hi]
    cases ha : atoi? (trimSpace rawItem) with
    | some n => exact Or.inr (Or.inl ⟨n, rfl, rfl⟩)
    | none =>
      by_cases hl : isValidLanguageToken (trimSpace rawItem)
      · rw [if_pos hl]
        exact Or.inr (Or.inr (Or.inl ⟨rfl, hl, rfl⟩))
      · rw [if_neg hl]
        by_cases hf : isValidFormatToken (asciiLower (trimSpace rawItem))
        · rw [if_pos hf]
          exact Or.inr (Or.inr (Or.inr ⟨rfl, hf, rfl⟩))
        · rw [if_neg hf]
          exact Or.inl ⟨Or.inr rfl, rfl⟩

/-- Parsing steps never remove set members. -/
theorem foldl_classifyStep_mono (l : List String) (acc : TrackSelection) :
    (∀ n ∈ acc.TrackNumbers, n ∈ (l.foldl classifyStep acc).TrackNumbers)
    ∧ (∀ s ∈ acc.LanguageCodes, s ∈ (l.foldl classifyStep acc).LanguageCodes)
    ∧ (∀ s ∈ acc.FormatFilters, s ∈ (l.foldl classifyStep acc).FormatFilters) := by
  induction l generalizing acc with
  | nil => exact ⟨fun _ h => h, fun _ h => h, fun _ h => h⟩
  | cons a t ih =>
    simp only [List.foldl_cons]
    refine ⟨?_, ?_, ?_⟩ <;> intro x hx
    · apply (ih (classifyStep acc a)).1
      rcases classifyStep_shape acc a with ⟨_, heq⟩ | ⟨n, _, heq⟩ | ⟨_, _, heq⟩ | ⟨_, _, heq⟩ <;>
        rw [heq] <;> simp [hx]
    · apply (ih (classifyStep acc a)).2.1
      rcases classifyStep_shape acc a with ⟨_, heq⟩ | ⟨n, _, heq⟩ | ⟨_, _, heq⟩ | ⟨_, _, heq⟩ <;>
        rw [heq] <;> simp [hx]
    · apply (ih (classifyStep acc a)).2.2
      rcases classifyStep_shape acc a with ⟨_, heq⟩ | ⟨n, _, heq⟩ | ⟨_, _, heq⟩ | ⟨_, _, heq⟩ <;>
        rw [heq] <;> simp [hx]

/-- Everything the parser adds to `LanguageCodes` or `FormatFilters` fails
integer parsing. -/
theorem foldl_classifyStep_inv (l : List String) (acc : TrackSelection)
    (hlc : ∀ s ∈ acc.LanguageCodes, atoi? s = none)
    (hff : ∀ s ∈ acc.FormatFilters, atoi? s = none) :
    (∀ s ∈ (l.foldl classifyStep acc).LanguageCodes, atoi? s = none)
    ∧ (∀ s ∈ (l.foldl classifyStep acc).FormatFilters, atoi? s = none) := by
  induction l generalizing acc with
  | nil => exact ⟨hlc, hff⟩
  | cons a t ih =>
    simp only [List.foldl_cons]
    apply ih
    · intro s hs
      rcases classifyStep_shape acc a with ⟨_, heq⟩ | ⟨n, _, heq⟩ | ⟨_, hval, heq⟩ |
          ⟨_, _, heq⟩ <;> rw [heq] at hs
      · exact hlc s hs
      · exact hlc s hs
      · rcases List.mem_append.mp hs with h | h
        · exact hlc s h
        · rw [List.mem_singleton.mp h]
          exact validLanguage_atoi_none hval
      · exact hlc s hs
    · intro s hs
      rcases classifyStep_shape acc a with ⟨_, heq⟩ | ⟨n, _, heq⟩ | ⟨_, _, heq⟩ |
          ⟨_, hval, heq⟩ <;> rw [heq] at hs
      · exact hff s hs
      · exact hff s hs
      · exact hff s hs
      · rcases List.mem_append.mp hs with h | h
        · exact hff s h
        · rw [List.mem_singleton.mp h]
          exact validFormat_atoi_none hval

/-- A numeric token anywhere in the list ends up in `TrackNumbers`. -/
theorem foldl_classifyStep_insert_tn (l : List String) (acc : TrackSelection)
    (raw : String) (hraw : raw ∈ l) (n : Int) (hn : atoi? (trimSpace raw) = some n) :
    n ∈ (l.foldl classifyStep acc).TrackNumbers := by
  induction l generalizing acc with
  | nil => cases hraw
  | cons a t ih =>
    simp only [List.foldl_cons]
    rcases List.mem_cons.mp hraw with he | hm
    · subst he
      apply (foldl_classifyStep_mono t (classifyStep acc raw)).1
      rcases classifyStep_shape acc raw with ⟨hd, heq⟩ | ⟨m, hm2, heq⟩ | ⟨hnone, _, _⟩ |
          ⟨hnone, _, _⟩
      · rcases hd with hd | hd
        · rw [hd] at hn
          exact absurd hn (by simp [atoi_empty])
        · rw [hd] at hn
          exact absurd hn (by simp)
      · rw [heq]
        have : m = n := by rw [hm2] at hn; exact (Option.some_inj.mp hn)
        subst this
        simp
      · rw [hnone] at hn
        exact absurd hn (by simp)
      · rw [hnone] at hn
        exact absurd hn (by simp)
    · exact ih (classifyStep acc a) hm

/-! ### Claim C5: numeric precedence in `ParseTrackSelection` -/

/-- Claim C5: every trimmed token that parses as an integer lands in
`TrackNumbers`, and nothing that parses as an integer is ever placed in
`LanguageCodes` or `FormatFilters`. -/
theorem claim_C5_numeric_precedence (input : String) :
    (∀ raw ∈ splitOnComma input, ∀ n : Int, atoi? (trimSpace raw) = some n →
        n ∈ (ParseTrackSelection input).TrackNumbers)
    ∧ (∀ s ∈ (ParseTrackSelection input).LanguageCodes, atoi? s = none)
    ∧ (∀ s ∈ (ParseTrackSelection input).FormatFilters, atoi? s = none) := by
  unfold ParseTrackSelection
  by_cases hin : input = ""
  · subst hin
    rw [if_pos rfl]
    refine ⟨?_, by simp, by simp⟩
    intro raw hraw n hn
    have hr : raw = "" := by
      have hsplit : splitOnComma "" = [""] := rfl
      rw [hsplit] at hraw
      simpa using hraw
    rw [hr, show trimSpace "" = "" from rfl] at hn
    exact absurd hn (by simp [atoi_empty])
  · rw [if_neg hin]
    refine ⟨?_, (foldl_classifyStep_inv _ {} (by simp) (by simp)).1,
      (foldl_classifyStep_inv _ {} (by simp) (by simp)).2⟩
    intro raw hraw n hn
    exact foldl_classifyStep_insert_tn _ {} raw hraw n hn

/-- Witness for C5: in `"eng,14,srt"` the numeric token `14` reaches
`TrackNumbers`. -/
theorem claim_C5_numeric_precedence_witness :
    (14 : Int) ∈ (ParseTrackSelection "eng,14,srt").TrackNumbers :=
  (claim_C5_numeric_precedence "eng,14,srt").1 "14" (by decide) 14 (by decide)

/-- The six possible outcomes of one parsing step of
`ParseTrackSelectionWithValidation`. -/
theorem classifyStepV_shape (avail : List Int) (acc : TrackSelection × List String)
    (rawItem : String) :
    (trimSpace rawItem = "" ∧ classifyStepV avail acc rawItem = acc)
    ∨ (∃ n, atoi? (trimSpace rawItem) = some n ∧ (avail.any fun v => n == v) = true ∧
        classifyStepV avail acc rawItem =
          ({ acc.1 with TrackNumbers := acc.1.TrackNumbers ++ [n] }, acc.2))
    ∨ (∃ n, atoi? (trimSpace rawItem) = some n ∧ (avail.any fun v => n == v) = false ∧
        classifyStepV avail acc rawItem = (acc.1, acc.2 ++ [trimSpace rawItem]))
    ∨ (atoi? (trimSpace rawItem) = none ∧ isValidLanguageToken (trimSpace rawItem) = true ∧
        classifyStepV avail acc rawItem =
          ({ acc.1 with LanguageCodes := acc.1.LanguageCodes ++ [trimSpace rawItem] }, acc.2))
    ∨ (atoi? (trimSpace rawItem) = none ∧ isValidLanguageToken (trimSpace rawItem) = false ∧
        isValidFormatToken (asciiLower (trimSpace rawItem)) = true ∧
        classifyStepV avail acc rawItem =
          ({ acc.1 with
              FormatFilters := acc.1.FormatFilters ++ [asciiLower (trimSpace rawItem)] }, acc.2))
    ∨ (trimSpace rawItem ≠ "" ∧ atoi? (trimSpace rawItem) = none ∧
        isValidLanguageToken (trimSpace rawItem) = false ∧
        isValidFormatToken (asciiLower (trimSpace rawItem)) = false ∧
        classifyStepV avail acc rawItem = (acc.1, acc.2 ++ [trimSpace rawItem])) := by
  unfold classifyStepV
  by_cases hi : trimSpace rawItem = ""
  · rw [if_pos hi]
    exact Or.inl ⟨hi, rfl⟩
  · rw [if_neg hi]
    split
    next n ha =>
      split
      next hav =>
        exact Or.inr (Or.inl ⟨n, ha, hav, rfl⟩)
      next hav =>
        simp only [Bool.not_eq_true] at hav
        exact Or.inr (Or.inr (Or.inl ⟨n, ha, hav, rfl⟩))
    next ha =>
      by_cases hl : isValidLanguageToken (trimSpace rawItem)
      · rw [if_pos hl]
        exact Or.inr (Or.inr (Or.inr (Or.inl ⟨ha, hl, rfl⟩)))
      · rw [if_neg hl]
        rw [show (¬isValidLanguageToken (trimSpace rawItem) = true) =
          (isValidLanguageToken (trimSpace rawItem) = false) from Bool.not_eq_true _] at hl
        by_cases hf : isValidFormatToken (asciiLower (trimSpace rawItem))
        · rw [if_pos hf]
          exact Or.inr (Or.inr (Or.inr (Or.inr (Or.inl ⟨ha, hl, hf, rfl⟩))))
        · rw [if_neg hf]
          rw [show (¬isValidFormatToken (asciiLower (trimSpace rawItem)) = true) =
            (isValidFormatToken (asciiLower (trimSpace rawItem)) = false)
            from Bool.not_eq_true _] at hf
          exact Or.inr (Or.inr (Or.inr (Or.inr (Or.inr ⟨hi, ha, hl, hf, rfl⟩))))

/-- Validating parsing steps never remove members. -/
theorem foldlV_mono (avail : List Int) (l : List String) (acc : TrackSelection × List String) :
    (∀ n ∈ acc.1.TrackNumbers, n ∈ (l.foldl (classifyStepV avail) acc).1.TrackNumbers)
    ∧ (∀ s ∈ acc.1.LanguageCodes, s ∈ (l.foldl (classifyStepV avail) acc).1.LanguageCodes)
    ∧ (∀ s ∈ acc.1.FormatFilters, s ∈ (l.foldl (classifyStepV avail) acc).1.FormatFilters)
    ∧ (∀ s ∈ acc.2, s ∈ (l.foldl (classifyStepV avail) acc).2) := by
  induction l generalizing acc with
  | nil => exact ⟨fun _ h => h, fun _ h => h, fun _ h => h, fun _ h => h⟩
  | cons a t ih =>
    simp only [List.foldl_cons]
    refine ⟨?_, ?_, ?_, ?_⟩ <;> intro x hx
    · apply (ih (classifyStepV avail acc a)).1
      rcases classifyStepV_shape avail acc a with ⟨_, heq⟩ | ⟨n, _, _, heq⟩ | ⟨n, _, _, heq⟩ |
        ⟨_, _, heq⟩ | ⟨_, _, _, heq⟩ | ⟨_, _, _, _, heq⟩ <;> rw [heq] <;> simp [hx]
    · apply (ih (classifyStepV avail acc a)).2.1
      rcases classifyStepV_shape avail acc a with ⟨_, heq⟩ | ⟨n, _, _, heq⟩ | ⟨n, _, _, heq⟩ |
        ⟨_, _, heq⟩ | ⟨_, _, _, heq⟩ | ⟨_, _, _, _, heq⟩ <;> rw [heq] <;> simp [hx]
    · apply (ih (classifyStepV avail acc a)).2.2.1
      rcases classifyStepV_shape avail acc a with ⟨_, heq⟩ | ⟨n, _, _, heq⟩ | ⟨n, _, _, heq⟩ |
        ⟨_, _, heq⟩ | ⟨_, _, _, heq⟩ | ⟨_, _, _, _, heq⟩ <;> rw [heq] <;> simp [hx]
    · apply (ih (classifyStepV avail acc a)).2.2.2
      rcases classifyStepV_shape avail acc a with ⟨_, heq⟩ | ⟨n, _, _, heq⟩ | ⟨n, _, _, heq⟩ |
        ⟨_, _, heq⟩ | ⟨_, _, _, heq⟩ | ⟨_, _, _, _, heq⟩ <;> rw [heq] <;> simp [hx]

/-- Invariants of the validating parser: accepted numbers are available, and
accepted language and format tokens are valid. -/
theorem foldlV_inv (avail : List Int) (l : List String) (acc : TrackSelection × List String)
    (h1 : ∀ n ∈ acc.1.TrackNumbers, n ∈ avail)
    (h2 : ∀ s ∈ acc.1.LanguageCodes, isValidLanguageToken s = true)
    (h3 : ∀ s ∈ acc.1.FormatFilters, isValidFormatToken s = true) :
    (∀ n ∈ (l.foldl (classifyStepV avail) acc).1.TrackNumbers, n ∈ avail)
    ∧ (∀ s ∈ (l.foldl (classifyStepV avail) acc).1.LanguageCodes,
        isValidLanguageToken s = true)
    ∧ (∀ s ∈ (l.foldl (classifyStepV avail) acc).1.FormatFilters,
        isValidFormatToken s = true) := by
  induction l generalizing acc with
  | nil => exact ⟨h1, h2, h3⟩
  | cons a t ih =>
    simp only [List.foldl_cons]
    apply ih
    · intro x hx
      rcases classifyStepV_shape avail acc a with ⟨_, heq⟩ | ⟨n, _, hav, heq⟩ |
        ⟨n, _, _, heq⟩ | ⟨_, _, heq⟩ | ⟨_, _, _, heq⟩ | ⟨_, _, _, _, heq⟩ <;> rw [heq] at hx
      · exact h1 x hx
      · rcases List.mem_append.mp hx with h | h
        · exact h1 x h
        · rw [List.mem_singleton.mp h]
          simp only [List.any_eq_true, beq_iff_eq] at hav
          obtain ⟨v, hv, he⟩ := hav
          rw [he]
          exact hv
      · exact h1 x hx
      · exact h1 x hx
      · exact h1 x hx
      · exact h1 x hx
    · intro x hx
      rcases classifyStepV_shape avail acc a with ⟨_, heq⟩ | ⟨n, _, _, heq⟩ |
        ⟨n, _, _, heq⟩ | ⟨_, hval, heq⟩ | ⟨_, _, _, heq⟩ | ⟨_, _, _, _, heq⟩ <;> rw [heq] at hx
      · exact h2 x hx
      · exact h2 x hx
      · exact h2 x hx
      · rcases List.mem_append.mp hx with h | h
        · exact h2 x h
        · rw [List.mem_singleton.mp h]
          exact hval
      · exact h2 x hx
      · exact h2 x hx
    · intro x hx
      rcases classifyStepV_shape avail acc a with ⟨_, heq⟩ | ⟨n, _, _, heq⟩ |
        ⟨n, _, _, heq⟩ | ⟨_, _, heq⟩ | ⟨_, _, hval, heq⟩ | ⟨_, _, _, _, heq⟩ <;> rw [heq] at hx
      · exact h3 x hx
      · exact h3 x hx
      · exact h3 x hx
      · exact h3 x hx
      · rcases List.mem_append.mp hx with h | h
        · exact h3 x h
        · rw [List.mem_singleton.mp h]
          exact hval
      · exact h3 x hx

/-- Each token of the input reaches the place its classification dictates,
independently of the other tokens. -/
theorem foldlV_insert (avail : List Int) (l : List String)
    (acc : TrackSelection × List String) (raw : String) (hraw : raw ∈ l) :
    (∀ n : Int, atoi? (trimSpace raw) = some n → (avail.any fun v => n == v) = true →
        n ∈ (l.foldl (classifyStepV avail) acc).1.TrackNumbers)
    ∧ (∀ n : Int, atoi? (trimSpace raw) = some n → (avail.any fun v => n == v) = false →
        trimSpace raw ∈ (l.foldl (classifyStepV avail) acc).2)
    ∧ (atoi? (trimSpace raw) = none → isValidLanguageToken (trimSpace raw) = true →
        trimSpace raw ∈ (l.foldl (classifyStepV avail) acc).1.LanguageCodes)
    ∧ (atoi? (trimSpace raw) = none → isValidLanguageToken (trimSpace raw) = false →
        isValidFormatToken (asciiLower (trimSpace raw)) = true →
        asciiLower (trimSpace raw) ∈ (l.foldl (classifyStepV avail) acc).1.FormatFilters)
    ∧ (trimSpace raw ≠ "" → atoi? (trimSpace raw) = none →
        isValidLanguageToken (trimSpace raw) = false →
        isValidFormatToken (asciiLower (trimSpace raw)) = false →
        trimSpace raw ∈ (l.foldl (classifyStepV avail) acc).2) := by
  induction l generalizing acc with
  | nil => cases hraw
  | cons a t ih =>
    simp only [List.foldl_cons]
    rcases List.mem_cons.mp hraw with he | hm
    · subst he
      refine ⟨?_, ?_, ?_, ?_, ?_⟩
      · intro n hn hav
        apply (foldlV_mono avail t (classifyStepV avail acc raw)).1
        rcases classifyStepV_shape avail acc raw with ⟨hd, heq⟩ | ⟨m, hm2, hav2, heq⟩ |
          ⟨m, hm2, hav2, heq⟩ | ⟨hd, _, _⟩ | ⟨hd, _, _, _⟩ | ⟨_, hd, _, _, _⟩
        · rw [hd] at hn; exact absurd hn (by simp [atoi_empty])
        · rw [hm2] at hn
          rw [heq, Option.some_inj.mp hn]
          simp
        · rw [hm2] at hn
          rw [Option.some_inj.mp hn] at hav2
          rw [hav2] at hav
          exact absurd hav (by simp)
        · rw [hd] at hn; exact absurd hn (by simp)
        · rw [hd] at hn; exact absurd hn (by simp)
        · rw [hd] at hn; exact absurd hn (by simp)
      · intro n hn hav
        apply (foldlV_mono avail t (classifyStepV avail acc raw)).2.2.2
        rcases classifyStepV_shape avail acc raw with ⟨hd, heq⟩ | ⟨m, hm2, hav2, heq⟩ |
          ⟨m, hm2, hav2, heq⟩ | ⟨hd, _, _⟩ | ⟨hd, _, _, _⟩ | ⟨_, hd, _, _, _⟩
        · rw [hd] at hn; exact absurd hn (by simp [atoi_empty])
        · rw [hm2] at hn
          rw [Option.some_inj.mp hn] at hav2
          rw [hav2] at hav
          exact absurd hav (by simp)
        · rw [heq]
          simp
        · rw [hd] at hn; exact absurd hn (by simp)
        · rw [hd] at hn; exact absurd hn (by simp)
        · rw [hd] at hn; exact absurd hn (by simp)
      · intro hn hval
        apply (foldlV_mono avail t (classifyStepV avail acc raw)).2.1
        rcases classifyStepV_shape avail acc raw with ⟨hd, heq⟩ | ⟨m, hm2, hav2, heq⟩ |
          ⟨m, hm2, hav2, heq⟩ | ⟨hd, hv2, heq⟩ | ⟨hd, hv2, _, _⟩ | ⟨_, hd, hv2, _, _⟩
        · rw [hd] at hval
          exact absurd hval (by decide)
        · rw [hm2] at hn; exact absurd hn (by simp)
        · rw [hm2] at hn; exact absurd hn (by simp)
        · rw [heq]
          simp
        · rw [hv2] at hval; exact absurd hval (by simp)
        · rw [hv2] at hval; exact absurd hval (by simp)
      · intro hn hval hfmt
        apply (foldlV_mono avail t (classifyStepV avail acc raw)).2.2.1
        rcases classifyStepV_shape avail acc raw with ⟨hd, heq⟩ | ⟨m, hm2, hav2, heq⟩ |
          ⟨m, hm2, hav2, heq⟩ | ⟨hd, hv2, heq⟩ | ⟨hd, hv2, hf2, heq⟩ | ⟨_, hd, hv2, hf2, _⟩
        · rw [hd] at hfmt
          exact absurd hfmt (by decide)
        · rw [hm2] at hn; exact absurd hn (by simp)
        · rw [hm2] at hn; exact absurd hn (by simp)
        · rw [hv2] at hval; exact absurd hval (by simp)
        · rw [heq]
          simp
        · rw [hf2] at hfmt; exact absurd hfmt (by simp)
      · intro hne hn hval hfmt
        apply (foldlV_mono avail t (classifyStepV avail acc raw)).2.2.2
        rcases classifyStepV_shape avail acc raw with ⟨hd, heq⟩ | ⟨m, hm2, hav2, heq⟩ |
          ⟨m, hm2, hav2, heq⟩ | ⟨hd, hv2, heq⟩ | ⟨hd, hv2, hf2, heq⟩ | ⟨_, hd, hv2, hf2, heq⟩
        · exact absurd hd hne
        · rw [hm2] at hn; exact absurd hn (by simp)
        · rw [hm2] at hn; exact absurd hn (by simp)
        · rw [hv2] at hval; exact absurd hval (by simp)
        · rw [hf2] at hfmt; exact absurd hfmt (by simp)
        · rw [heq]
          simp
    · exact ih (classifyStepV avail acc a) hm

/-! ### Claim C6: invalid tokens in the validating parser -/

/-- Claim C6: in the validating variant, an unavailable numeric token or an
unrecognized token is collected into the invalid list and reaches none of
the three filter sets, while every other token of the same input is still
classified normally. -/
theorem claim_C6_invalid_tokens (input : String) (avail : List Int) :
    (∀ raw ∈ splitOnComma input,
      (∀ n : Int, atoi? (trimSpace raw) = some n → n ∉ avail →
        trimSpace raw ∈ (ParseTrackSelectionWithValidation input avail).2
        ∧ n ∉ (ParseTrackSelectionWithValidation input avail).1.TrackNumbers)
      ∧ (trimSpace raw ≠ "" → atoi? (trimSpace raw) = none →
          isValidLanguageToken (trimSpace raw) = false →
          isValidFormatToken (asciiLower (trimSpace raw)) = false →
          trimSpace raw ∈ (ParseTrackSelectionWithValidation input avail).2
          ∧ trimSpace raw ∉ (ParseTrackSelectionWithValidation input avail).1.LanguageCodes
          ∧ asciiLower (trimSpace raw) ∉
              (ParseTrackSelectionWithValidation input avail).1.FormatFilters)
      ∧ (∀ n : Int, atoi? (trimSpace raw) = some n → n ∈ avail →
          n ∈ (ParseTrackSelectionWithValidation input avail).1.TrackNumbers)
      ∧ (atoi? (trimSpace raw) = none → isValidLanguageToken (trimSpace raw) = true →
          trimSpace raw ∈ (ParseTrackSelectionWithValidation input avail).1.LanguageCodes)
      ∧ (atoi? (trimSpace raw) = none → isValidLanguageToken (trimSpace raw) = false →
          isValidFormatToken (asciiLower (trimSpace raw)) = true →
          asciiLower (trimSpace raw) ∈
            (ParseTrackSelectionWithValidation input avail).1.FormatFilters))
    ∧ (∀ n ∈ (ParseTrackSelectionWithValidation input avail).1.TrackNumbers, n ∈ avail) := by
  have hany : ∀ (n : Int), n ∈ avail ↔ (avail.any fun v => n == v) = true := by
    intro n
    simp [List.any_eq_true, beq_iff_eq]
  unfold ParseTrackSelectionWithValidation
  by_cases hin : input = ""
  · subst hin
    rw [if_pos rfl]
    constructor
    · intro raw hraw
      have hr : raw = "" := by
        have hsplit : splitOnComma "" = [""] := rfl
        rw [hsplit] at hraw
        simpa using hraw
      subst hr
      rw [show trimSpace "" = "" from rfl]
      refine ⟨?_, ?_, ?_, ?_, ?_⟩
      · intro n hn
        exact absurd hn (by simp [atoi_empty])
      · intro hne
        exact absurd rfl hne
      · intro n hn
        exact absurd hn (by simp [atoi_empty])
      · intro _ hval
        exact absurd hval (by decide)
      · intro _ _ hfmt
        exact absurd hfmt (by decide)
    · intro n hn
      exact absurd hn (by simp)
  · rw [if_neg hin]
    have hinv := foldlV_inv avail (splitOnComma input) ({}, [])
      (by simp) (by simp) (by simp)
    constructor
    · intro raw hraw
      have hins := foldlV_insert avail (splitOnComma input) ({}, []) raw hraw
      refine ⟨?_, ?_, ?_, ?_, ?_⟩
      · intro n hn hnav
        refine ⟨hins.2.1 n hn ?_, ?_⟩
        · cases hx : (avail.any fun v => n == v)
          · rfl
          · exact absurd ((hany n).mpr hx) hnav
        · intro hmem
          exact hnav (hinv.1 n hmem)
      · intro hne hn hval hfmt
        refine ⟨hins.2.2.2.2 hne hn hval hfmt, ?_, ?_⟩
        · intro hmem
          rw [hinv.2.1 _ hmem] at hval
          exact absurd hval (by simp)
        · intro hmem
          rw [hinv.2.2 _ hmem] at hfmt
          exact absurd hfmt (by simp)
      · intro n hn hnav
        exact hins.1 n hn ((hany n).mp hnav)
      · exact hins.2.2.1
      · exact hins.2.2.2.1
    · exact hinv.1

/-- Witness for C6: `"xyz123abc"` is reported invalid and excluded from all
three sets, while `"eng"` from the same input is still accepted. -/
theorem claim_C6_invalid_tokens_witness :
    ("xyz123abc" ∈ (ParseTrackSelectionWithValidation "xyz123abc,eng,99" [1, 2]).2
      ∧ "xyz123abc" ∉
          (ParseTrackSelectionWithValidation "xyz123abc,eng,99" [1, 2]).1.LanguageCodes
      ∧ asciiLower "xyz123abc" ∉
          (ParseTrackSelectionWithValidation "xyz123abc,eng,99" [1, 2]).1.FormatFilters)
    ∧ "eng" ∈ (ParseTrackSelectionWithValidation "xyz123abc,eng,99" [1, 2]).1.LanguageCodes :=
  ⟨by
    have h := ((claim_C6_invalid_tokens "xyz123abc,eng,99" [1, 2]).1 "xyz123abc"
      (by decide)).2.1 (by decide) (by decide) (by decide) (by decide)
    simpa using h,
   by
    have h := ((claim_C6_invalid_tokens "xyz123abc,eng,99" [1, 2]).1 "eng"
      (by decide)).2.2.2.1 (by decide) (by decide)
    simpa using h⟩

/-! ### Split/join lemmas for the dot cleanup (claims C7 and C10) -/

theorem splitOnCharL_ne_nil (sep : Char) (l : List Char) : splitOnCharL sep l ≠ [] := by
  induction l with
  | nil => simp [splitOnCharL]
  | cons c rest ih =>
    unfold splitOnCharL
    by_cases hc : c = sep
    · simp [hc]
    · rw [if_neg hc]
      cases h : splitOnCharL sep rest with
      | nil => exact absurd h ih
      | cons seg segs => simp

theorem mem_splitOnCharL_not_sep (sep : Char) (l : List Char) :
    ∀ seg ∈ splitOnCharL sep l, sep ∉ seg := by
  induction l with
  | nil =>
    intro seg hseg
    simp only [splitOnCharL, List.mem_singleton] at hseg
    simp [hseg]
  | cons c rest ih =>
    intro seg hseg
    unfold splitOnCharL at hseg
    by_cases hc : c = sep
    · rw [if_pos hc] at hseg
      rcases List.mem_cons.mp hseg with he | hm
      · simp [he]
      · exact ih seg hm
    · rw [if_neg hc] at hseg
      cases h : splitOnCharL sep rest with
      | nil => exact absurd h (splitOnCharL_ne_nil sep rest)
      | cons s segs =>
        rw [h] at hseg
        rcases List.mem_cons.mp hseg with he | hm
        · subst he
          intro hmem
          rcases List.mem_cons.mp hmem with he2 | hm2
          · exact hc he2.symm
          · exact ih s (h ▸ List.mem_cons_self s segs) hm2
        · exact ih seg (h ▸ List.mem_cons_of_mem s hm)

theorem splitOnCharL_no_sep (sep : Char) (p : List Char) (h : sep ∉ p) :
    splitOnCharL sep p = [p] := by
  induction p with
  | nil => rfl
  | cons c t ih =>
    unfold splitOnCharL
    have hc : ¬c = sep := fun he => h (he ▸ List.mem_cons_self c t)
    rw [if_neg hc, ih (fun hm => h (List.mem_cons_of_mem c hm))]

theorem splitOnCharL_append_sep (sep : Char) (p t : List Char) (h : sep ∉ p) :
    splitOnCharL sep (p ++ sep :: t) = p :: splitOnCharL sep t := by
  induction p with
  | nil => simp [splitOnCharL]
  | cons c p' ih =>
    have hc : ¬c = sep := fun he => h (he ▸ List.mem_cons_self c p')
    simp only [List.cons_append]
    conv_lhs => unfold splitOnCharL
    rw [if_neg hc, ih (fun hm => h (List.mem_cons_of_mem c hm))]

theorem splitOnCharL_joinWithChar (sep : Char) (ps : List (List Char)) (hne : ps ≠ [])
    (hsep : ∀ p ∈ ps, sep ∉ p) : splitOnCharL sep (joinWithChar sep ps) = ps := by
  induction ps with
  | nil => exact absurd rfl hne
  | cons p ps' ih =>
    cases ps' with
    | nil =>
      exact splitOnCharL_no_sep sep p (hsep p (List.mem_cons_self p []))
    | cons q ps'' =>
      show splitOnCharL sep (p ++ sep :: joinWithChar sep (q :: ps'')) = _
      rw [splitOnCharL_append_sep sep p _ (hsep p (List.mem_cons_self p _))]
      rw [ih (by simp) (fun r hr => hsep r (List.mem_cons_of_mem p hr))]

theorem cleanupL_idem (l : List Char) : cleanupL (cleanupL l) = cleanupL l := by
  have hprops : ∀ p ∈ (splitOnCharL '.' l).filter (· ≠ []), p ≠ [] ∧ '.' ∉ p := by
    intro p hp
    have hm := List.mem_of_mem_filter hp
    have hf := List.of_mem_filter hp
    exact ⟨by simpa using hf, mem_splitOnCharL_not_sep '.' l p hm⟩
  cases hps : (splitOnCharL '.' l).filter (· ≠ []) with
  | nil =>
    unfold cleanupL
    rw [hps]
    rfl
  | cons p ps' =>
    unfold cleanupL
    rw [hps]
    rw [splitOnCharL_joinWithChar '.' (p :: ps') (by simp)
      (fun r hr => ((hps ▸ hprops) r hr).2)]
    have : (p :: ps').filter (· ≠ []) = p :: ps' := by
      apply List.filter_eq_self.mpr
      intro a ha
      simpa using ((hps ▸ hprops) a ha).1
    rw [this]

/-! ### Claim C7: `cleanupFileName` is idempotent -/

/-- Claim C7: applying the dot-cleanup twice yields the same string as
applying it once, for every input string. -/
theorem claim_C7_cleanup_idempotent (s : String) :
    cleanupFileName (cleanupFileName s) = cleanupFileName s := by
  show String.mk (cleanupL (String.mk (cleanupL s.data)).data) = String.mk (cleanupL s.data)
  rw [show (String.mk (cleanupL s.data)).data = cleanupL s.data from rfl, cleanupL_idem]

/-! ### No-empty-segment lemmas (claim C10) -/

theorem hasDoubleDot_of_no_dot {p : List Char} (h : '.' ∉ p) : hasDoubleDot p = false := by
  induction p with
  | nil => rfl
  | cons a t ih =>
    cases t with
    | nil => rfl
    | cons b t' =>
      have ha : ¬(a = '.') := fun he => h (he ▸ List.mem_cons_self a _)
      have ht : '.' ∉ b :: t' := fun hm => h (List.mem_cons_of_mem a hm)
      show ((a = '.' && b = '.') || hasDoubleDot (b :: t')) = false
      rw [ih ht]
      simp [ha]

theorem mem_of_getLast?_eq {l : List Char} {a : Char} (h : l.getLast? = some a) : a ∈ l := by
  induction l with
  | nil => simp at h
  | cons x t ih =>
    cases t with
    | nil =>
      simp only [List.getLast?_singleton, Option.some_inj] at h
      simp [h]
    | cons b t' =>
      rw [List.getLast?_cons_cons] at h
      exact List.mem_cons_of_mem x (ih h)

theorem head?_ne_of_not_mem {l : List Char} {a : Char} (h : a ∉ l) : l.head? ≠ some a := by
  cases l with
  | nil => simp
  | cons c t =>
    simp only [List.head?_cons, ne_eq, Option.some_inj]
    intro he
    exact h (he ▸ List.mem_cons_self c t)

theorem hasDoubleDot_append {b : List Char} (hb : hasDoubleDot b = false) (a : List Char)
    (ha : hasDoubleDot a = false)
    (hmid : a.getLast? ≠ some '.' ∨ b.head? ≠ some '.') :
    hasDoubleDot (a ++ b) = false := by
  induction a with
  | nil => simpa using hb
  | cons x t ih =>
    cases t with
    | nil =>
      cases b with
      | nil => rfl
      | cons y b' =>
        show ((x = '.' && y = '.') || hasDoubleDot (y :: b')) = false
        rw [hb]
        rcases hmid with hm | hm
        · have hx : ¬(x = '.') := by
            simp only [List.getLast?_singleton, ne_eq, Option.some_inj] at hm
            exact hm
          simp [hx]
        · have hy : ¬(y = '.') := by
            simp only [List.head?_cons, ne_eq, Option.some_inj] at hm
            exact hm
          simp [hy]
    | cons z t' =>
      show ((x = '.' && z = '.') || hasDoubleDot (z :: (t' ++ b))) = false
      have ha2 : ((x = '.' && z = '.') || hasDoubleDot (z :: t')) = false := ha
      rw [Bool.or_eq_false_iff] at ha2
      have hmid2 : (z :: t').getLast? ≠ some '.' ∨ b.head? ≠ some '.' := by
        rcases hmid with hm | hm
        · left
          rw [List.getLast?_cons_cons] at hm
          exact hm
        · exact Or.inr hm
      have hres := ih ha2.2 hmid2
      simp only [List.cons_append] at hres
      rw [Bool.or_eq_false_iff]
      exact ⟨ha2.1, hres⟩

theorem joinWithChar_dot_props (ps : List (List Char))
    (h : ∀ p ∈ ps, p ≠ [] ∧ '.' ∉ p) :
    hasDoubleDot (joinWithChar '.' ps) = false
    ∧ (joinWithChar '.' ps).head? ≠ some '.'
    ∧ (joinWithChar '.' ps).getLast? ≠ some '.' := by
  induction ps with
  | nil => exact ⟨rfl, by simp [joinWithChar], by simp [joinWithChar]⟩
  | cons p ps' ih =>
    cases ps' with
    | nil =>
      have hp := h p (List.mem_cons_self p _)
      refine ⟨hasDoubleDot_of_no_dot hp.2, head?_ne_of_not_mem hp.2, ?_⟩
      intro hc
      exact hp.2 (mem_of_getLast?_eq hc)
    | cons q psq =>
      have hp := h p (List.mem_cons_self p _)
      have hih := ih (fun r hr => h r (List.mem_cons_of_mem p hr))
      have hq := h q (List.mem_cons_of_mem p (List.mem_cons_self q _))
      have hjne : joinWithChar '.' (q :: psq) ≠ [] := by
        cases psq with
        | nil =>
          show q ≠ []
          exact hq.1
        | cons r psr =>
          show q ++ '.' :: joinWithChar '.' (r :: psr) ≠ []
          simp
      show hasDoubleDot (p ++ '.' :: joinWithChar '.' (q :: psq)) = false
        ∧ (p ++ '.' :: joinWithChar '.' (q :: psq)).head? ≠ some '.'
        ∧ (p ++ '.' :: joinWithChar '.' (q :: psq)).getLast? ≠ some '.'
      refine ⟨?_, ?_, ?_⟩
      · apply hasDoubleDot_append
        · cases hj : joinWithChar '.' (q :: psq) with
          | nil => rfl
          | cons y j' =>
            show (('.' = '.' && y = '.') || hasDoubleDot (y :: j')) = false
            have hy : ¬(y = '.') := by
              have hh := hih.2.1
              rw [hj] at hh
              simp only [List.head?_cons, ne_eq, Option.some_inj] at hh
              exact hh
            have hdd : hasDoubleDot (y :: j') = false := by
              have hh := hih.1
              rw [hj] at hh
              exact hh
            rw [hdd]
            simp [hy]
        · exact hasDoubleDot_of_no_dot hp.2
        · left
          intro hc
          exact hp.2 (mem_of_getLast?_eq hc)
      · cases p with
        | nil => exact absurd rfl hp.1
        | cons c t =>
          simp only [List.cons_append, List.head?_cons, ne_eq, Option.some_inj]
          intro he
          exact hp.2 (he ▸ List.mem_cons_self c t)
      · rw [List.getLast?_append]
        cases hj : joinWithChar '.' (q :: psq) with
        | nil => exact absurd hj hjne
        | cons y j' =>
          rw [List.getLast?_cons_cons]
          have hsome : ((y :: j').getLast?).isSome := by
            rw [List.getLast?_isSome]
            simp
          obtain ⟨v, hv⟩ := Option.isSome_iff_exists.mp hsome
          rw [hv]
          have hh := hih.2.2
          rw [hj, hv] at hh
          simpa using hh

/-- The cleanup output has no empty dot segment: no double dot, no leading
dot, no trailing dot. -/
theorem cleanup_no_empty_segment (s : String) :
    hasDoubleDot (cleanupFileName s).data = false
    ∧ (cleanupFileName s).data.head? ≠ some '.'
    ∧ (cleanupFileName s).data.getLast? ≠ some '.' := by
  show hasDoubleDot (cleanupL s.data) = false ∧ (cleanupL s.data).head? ≠ some '.'
    ∧ (cleanupL s.data).getLast? ≠ some '.'
  apply joinWithChar_dot_props
  intro p hp
  have hm := List.mem_of_mem_filter hp
  have hf := List.of_mem_filter hp
  exact ⟨by simpa using hf, mem_splitOnCharL_not_sep '.' s.data p hm⟩

/-! ### Claim C10: rendered filenames have no empty dot segment -/

/-- Claim C10: the output of `cleanupFileName` never contains two adjacent
dots and never begins or ends with a dot; consequently every filename
produced by `BuildFileNameFromTemplate` — any template, any track, any
input name — satisfies the same invariant. -/
theorem claim_C10_no_empty_dot_segments :
    (∀ s : String, hasDoubleDot (cleanupFileName s).data = false
      ∧ (cleanupFileName s).data.head? ≠ some '.'
      ∧ (cleanupFileName s).data.getLast? ≠ some '.')
    ∧ (∀ (inputFileName : String) (track : MKVTrack) (template : String),
        hasDoubleDot (BuildFileNameFromTemplate inputFileName track template).data = false
        ∧ (BuildFileNameFromTemplate inputFileName track template).data.head? ≠ some '.'
        ∧ (BuildFileNameFromTemplate inputFileName track template).data.getLast? ≠ some '.') := by
  refine ⟨cleanup_no_empty_segment, ?_⟩
  intro inputFileName track template
  unfold BuildFileNameFromTemplate
  exact cleanup_no_empty_segment _

/-! ### replaceAll lemmas for claim C8 -/

theorem replaceAllGo_nil (pat v : List Char) (f : Nat) : replaceAllGo pat v f [] = [] := by
  cases f <;> rfl

theorem replaceAllGo_fuel_irrel (pat v : List Char) :
    ∀ (f1 f2 : Nat) (s : List Char), s.length ≤ f1 → s.length ≤ f2 →
      replaceAllGo pat v f1 s = replaceAllGo pat v f2 s := by
  intro f1
  induction f1 with
  | zero =>
    intro f2 s hs1 _
    have hsn : s = [] := List.eq_nil_of_length_eq_zero (Nat.le_zero.mp hs1)
    subst hsn
    rw [replaceAllGo_nil, replaceAllGo_nil]
  | succ m ih =>
    intro f2 s hs1 hs2
    cases s with
    | nil => rw [replaceAllGo_nil, replaceAllGo_nil]
    | cons c rest =>
      cases f2 with
      | zero =>
        simp at hs2
      | succ k =>
        show (if pat ≠ [] ∧ startsWithL pat (c :: rest) = true then
            v ++ replaceAllGo pat v m ((c :: rest).drop pat.length)
          else c :: replaceAllGo pat v m rest) =
          (if pat ≠ [] ∧ startsWithL pat (c :: rest) = true then
            v ++ replaceAllGo pat v k ((c :: rest).drop pat.length)
          else c :: replaceAllGo pat v k rest)
        by_cases hcond : pat ≠ [] ∧ startsWithL pat (c :: rest) = true
        · rw [if_pos hcond, if_pos hcond]
          have hplen : 0 < pat.length := List.length_pos.mpr hcond.1
          have hd1 : ((c :: rest).drop pat.length).length ≤ m := by
            simp only [List.length_drop, List.length_cons]
            simp only [List.length_cons] at hs1
            omega
          have hd2 : ((c :: rest).drop pat.length).length ≤ k := by
            simp only [List.length_drop, List.length_cons]
            simp only [List.length_cons] at hs2
            omega
          rw [ih k _ hd1 hd2]
        · rw [if_neg hcond, if_neg hcond]
          have hr1 : rest.length ≤ m := by
            simp only [List.length_cons] at hs1
            omega
          have hr2 : rest.length ≤ k := by
            simp only [List.length_cons] at hs2
            omega
          rw [ih k _ hr1 hr2]

theorem replaceAllL_nil (pat v : List Char) : replaceAllL pat v [] = [] := rfl

theorem replaceAllL_cons (pat v : List Char) (c : Char) (rest : List Char) :
    replaceAllL pat v (c :: rest) =
      if pat ≠ [] ∧ startsWithL pat (c :: rest) = true then
        v ++ replaceAllL pat v ((c :: rest).drop pat.length)
      else c :: replaceAllL pat v rest := by
  show (if pat ≠ [] ∧ startsWithL pat (c :: rest) = true then
      v ++ replaceAllGo pat v rest.length ((c :: rest).drop pat.length)
    else c :: replaceAllGo pat v rest.length rest) = _
  by_cases hcond : pat ≠ [] ∧ startsWithL pat (c :: rest) = true
  · rw [if_pos hcond, if_pos hcond]
    have hplen : 0 < pat.length := List.length_pos.mpr hcond.1
    show _ = v ++ replaceAllGo pat v ((c :: rest).drop pat.length).length
      ((c :: rest).drop pat.length)
    rw [replaceAllGo_fuel_irrel pat v rest.length (((c :: rest).drop pat.length).length) _
      (by simp only [List.length_drop, List.length_cons]; omega) (Nat.le_refl _)]
  · rw [if_neg hcond, if_neg hcond]
    rfl

theorem braceFreeL_iff (l : List Char) :
    braceFreeL l = true ↔ ∀ c ∈ l, c ≠ lbrace ∧ c ≠ rbrace := by
  simp [braceFreeL, List.all_eq_true]

theorem braceFreeL_append {a b : List Char} (ha : braceFreeL a = true)
    (hb : braceFreeL b = true) : braceFreeL (a ++ b) = true := by
  rw [braceFreeL_iff] at *
  intro c hc
  rcases List.mem_append.mp hc with h | h
  · exact ha c h
  · exact hb c h

theorem startsWithL_self_append (p t : List Char) : startsWithL p (p ++ t) = true := by
  induction p with
  | nil => rfl
  | cons c p' ih =>
    show (c = c && startsWithL p' (p' ++ t)) = true
    simp [ih]

theorem replaceAllL_no_lbrace_append (pat v pw : List Char) (hpat : pat = lbrace :: pw)
    (xs t : List Char) (hxs : ∀ c ∈ xs, c ≠ lbrace) :
    replaceAllL pat v (xs ++ t) = xs ++ replaceAllL pat v t := by
  induction xs with
  | nil => rfl
  | cons c xs' ih =>
    have hc : c ≠ lbrace := hxs c (List.mem_cons_self c xs')
    show replaceAllL pat v (c :: (xs' ++ t)) = c :: (xs' ++ replaceAllL pat v t)
    rw [replaceAllL_cons, if_neg]
    · rw [ih (fun d hd => hxs d (List.mem_cons_of_mem c hd))]
    · rintro ⟨_, hsw⟩
      rw [hpat] at hsw
      simp only [startsWithL, Bool.and_eq_true, decide_eq_true_eq] at hsw
      exact hc hsw.1.symm

theorem replaceAllL_token_here (pat v rest : List Char) (hpat : pat ≠ []) :
    replaceAllL pat v (pat ++ rest) = v ++ replaceAllL pat v rest := by
  cases hp : pat with
  | nil => exact absurd hp hpat
  | cons c pw =>
    rw [List.cons_append]
    have hsw : startsWithL (c :: pw) (c :: (pw ++ rest)) = true := by
      rw [← List.cons_append]
      exact startsWithL_self_append (c :: pw) rest
    rw [replaceAllL_cons, if_pos ⟨by simp, hsw⟩]
    rw [show c :: (pw ++ rest) = (c :: pw) ++ rest from (List.cons_append c pw rest).symm,
      List.drop_left]

theorem braceFree_rbrace_startsWith :
    ∀ wp wq t : List Char, braceFreeL wp = true → braceFreeL wq = true →
      startsWithL (wp ++ [rbrace]) (wq ++ rbrace :: t) = true → wp = wq := by
  intro wp
  induction wp with
  | nil =>
    intro wq t _ hwq hsw
    cases wq with
    | nil => rfl
    | cons c wq' =>
      exfalso
      simp only [List.nil_append, List.cons_append, startsWithL, Bool.and_eq_true,
        decide_eq_true_eq] at hsw
      have hc := ((braceFreeL_iff _).mp hwq c (List.mem_cons_self c wq')).2
      exact hc hsw.1.symm
  | cons x wp' ih =>
    intro wq t hwp hwq hsw
    cases wq with
    | nil =>
      exfalso
      simp only [List.cons_append, List.nil_append, startsWithL, Bool.and_eq_true,
        decide_eq_true_eq] at hsw
      have hx := ((braceFreeL_iff _).mp hwp x (List.mem_cons_self x wp')).2
      exact hx hsw.1
    | cons y wq' =>
      simp only [List.cons_append, startsWithL, Bool.and_eq_true, decide_eq_true_eq] at hsw
      have hwp' : braceFreeL wp' = true := by
        rw [braceFreeL_iff] at hwp ⊢
        exact fun d hd => hwp d (List.mem_cons_of_mem x hd)
      have hwq' : braceFreeL wq' = true := by
        rw [braceFreeL_iff] at hwq ⊢
        exact fun d hd => hwq d (List.mem_cons_of_mem y hd)
      have hr := ih wq' t hwp' hwq' hsw.2
      rw [hsw.1, hr]

theorem replaceAllL_other_token (pat v wp wq : List Char)
    (hpat : pat = lbrace :: wp ++ [rbrace]) (hwp : braceFreeL wp = true)
    (hwq : braceFreeL wq = true) (hne : pat ≠ lbrace :: wq ++ [rbrace]) (rest : List Char) :
    replaceAllL pat v ((lbrace :: wq ++ [rbrace]) ++ rest) =
      (lbrace :: wq ++ [rbrace]) ++ replaceAllL pat v rest := by
  have hassoc : (lbrace :: wq ++ [rbrace]) ++ rest = lbrace :: (wq ++ rbrace :: rest) := by
    simp
  rw [hassoc]
  have hstep1 : replaceAllL pat v (lbrace :: (wq ++ rbrace :: rest)) =
      lbrace :: replaceAllL pat v (wq ++ rbrace :: rest) := by
    rw [replaceAllL_cons, if_neg]
    rintro ⟨_, hsw⟩
    rw [hpat] at hsw
    simp only [List.cons_append, startsWithL, Bool.and_eq_true, decide_eq_true_eq] at hsw
    have hq := braceFree_rbrace_startsWith wp wq rest hwp hwq hsw.2
    rw [hq] at hpat
    exact hne hpat
  have hstep2 : replaceAllL pat v (wq ++ rbrace :: rest) =
      wq ++ replaceAllL pat v (rbrace :: rest) := by
    apply replaceAllL_no_lbrace_append pat v (wp ++ [rbrace]) (by rw [hpat]; rfl)
    intro c hc
    exact ((braceFreeL_iff _).mp hwq c hc).1
  have hstep3 : replaceAllL pat v (rbrace :: rest) = rbrace :: replaceAllL pat v rest := by
    rw [replaceAllL_cons, if_neg]
    rintro ⟨_, hsw⟩
    rw [hpat] at hsw
    simp only [startsWithL, Bool.and_eq_true, decide_eq_true_eq] at hsw
    exact absurd hsw.1 (by decide)
  rw [hstep1, hstep2, hstep3]
  simp

theorem replaceAllL_braceFree (pat v pw : List Char) (hpat : pat = lbrace :: pw)
    (a : List Char) (ha : braceFreeL a = true) :
    replaceAllL pat v a = a := by
  have hr := replaceAllL_no_lbrace_append pat v pw hpat a []
    (fun c hc => ((braceFreeL_iff _).mp ha c hc).1)
  rw [replaceAllL_nil] at hr
  simpa using hr

theorem TokenInterleaving.prepend {ps : List (List Char)} {t : List Char}
    (h : TokenInterleaving ps t) (b : List Char) (hb : braceFreeL b = true) :
    TokenInterleaving ps (b ++ t) := by
  induction h with
  | nil a ha => exact .nil (b ++ a) (braceFreeL_append hb ha)
  | cons a p ps2 rest ha hp hrest =>
    rw [show b ++ (a ++ p ++ rest) = (b ++ a) ++ p ++ rest by simp]
    exact .cons (b ++ a) p ps2 rest (braceFreeL_append hb ha) hp hrest

/-- Replacing one braced token inside a token interleaving by brace-free
text removes that token from the interleaving. -/
theorem tokenInterleaving_replaceAll (pat v wp : List Char)
    (hpat : pat = lbrace :: wp ++ [rbrace]) (hwp : braceFreeL wp = true)
    (hv : braceFreeL v = true) :
    ∀ {ps : List (List Char)} {s : List Char}, TokenInterleaving ps s →
      TokenInterleaving (ps.filter (· ≠ pat)) (replaceAllL pat v s) := by
  intro ps s h
  induction h with
  | nil a ha =>
    rw [replaceAllL_braceFree pat v (wp ++ [rbrace]) (by rw [hpat]; rfl) a ha]
    exact .nil a ha
  | cons a p ps2 rest ha hp hrest ih =>
    obtain ⟨wq, hwq, rfl⟩ := hp
    rw [show a ++ (lbrace :: wq ++ [rbrace]) ++ rest
        = a ++ ((lbrace :: wq ++ [rbrace]) ++ rest) by simp]
    rw [replaceAllL_no_lbrace_append pat v (wp ++ [rbrace]) (by rw [hpat]; rfl) a _
      (fun c hc => ((braceFreeL_iff _).mp ha c hc).1)]
    by_cases hpq : pat = lbrace :: wq ++ [rbrace]
    · rw [← hpq]
      rw [replaceAllL_token_here pat v rest (by rw [hpat]; simp)]
      have hfeq : ((pat :: ps2).filter (· ≠ pat)) = ps2.filter (· ≠ pat) := by
        rw [List.filter_cons, if_neg (by simp)]
      rw [hfeq, show a ++ (v ++ replaceAllL pat v rest) = (a ++ v) ++ replaceAllL pat v rest
        by simp]
      exact ih.prepend (a ++ v) (braceFreeL_append ha hv)
    · rw [replaceAllL_other_token pat v wp wq hpat hwp hwq hpq rest]
      have hfeq : (((lbrace :: wq ++ [rbrace]) :: ps2).filter (· ≠ pat)) =
          (lbrace :: wq ++ [rbrace]) :: ps2.filter (· ≠ pat) := by
        rw [List.filter_cons, if_pos]
        simp only [ne_eq, decide_eq_true_eq]
        exact fun he => hpq he.symm
      rw [hfeq, ← List.append_assoc]
      exact .cons a _ _ _ ha ⟨wq, hwq, rfl⟩ ih

theorem tokenInterleaving_nil_braceFree {s : List Char} (h : TokenInterleaving [] s) :
    braceFreeL s = true := by
  cases h with
  | nil a ha => exact ha

/-! ### Brace-freeness of the substituted values (claim C8) -/

theorem braceFreeL_of_subset {l l' : List Char} (hsub : ∀ c ∈ l', c ∈ l)
    (hl : braceFreeL l = true) : braceFreeL l' = true := by
  rw [braceFreeL_iff] at *
  exact fun c hc => hl c (hsub c hc)

theorem pathBase_braceFree (s : String) (hs : braceFree s = true) :
    braceFree (pathBase s) = true := by
  unfold pathBase
  by_cases h0 : s = ""
  · rw [if_pos h0]
    decide
  · rw [if_neg h0]
    show braceFree (if s.data.reverse.dropWhile (· = '/') = [] then "/"
      else ⟨((s.data.reverse.dropWhile (· = '/')).takeWhile (· ≠ '/')).reverse⟩) = true
    by_cases h1 : s.data.reverse.dropWhile (· = '/') = []
    · rw [if_pos h1]
      decide
    · rw [if_neg h1]
      apply braceFreeL_of_subset _ hs
      intro c hc
      rw [List.mem_reverse] at hc
      have h2 := (List.takeWhile_sublist _).subset hc
      have h3 := (List.dropWhile_sublist _).subset h2
      rw [List.mem_reverse] at h3
      exact h3

theorem trimSuffixStr_braceFree (s suf : String) (hs : braceFree s = true) :
    braceFree (trimSuffixStr s suf) = true := by
  unfold trimSuffixStr
  by_cases h : suf.data.isSuffixOf s.data
  · rw [if_pos h]
    apply braceFreeL_of_subset _ hs
    intro c hc
    exact (List.take_sublist _ _).subset hc
  · rw [if_neg h]
    exact hs

theorem natDigitCharsGo_range (fuel : Nat) :
    ∀ m acc, (∀ c ∈ acc, 48 ≤ c.toNat ∧ c.toNat ≤ 57) →
      ∀ c ∈ natDigitCharsGo fuel m acc, 48 ≤ c.toNat ∧ c.toNat ≤ 57 := by
  induction fuel with
  | zero => exact fun m acc hacc c hc => hacc c hc
  | succ f ih =>
    intro m acc hacc c hc
    cases m with
    | zero => exact hacc c hc
    | succ k =>
      rw [natDigitCharsGo] at hc
      refine ih ((k + 1) / 10) _ ?_ c hc
      intro d hd
      rcases List.mem_cons.mp hd with he | hm
      · subst he
        rw [char_toNat_ofNat ((k + 1) % 10 + 48) (by omega)]
        have := Nat.mod_lt (k + 1) (by omega : 0 < 10)
        omega
      · exact hacc d hm

theorem natDigitChars_range (n : Nat) :
    ∀ c ∈ natDigitChars n, 48 ≤ c.toNat ∧ c.toNat ≤ 57 := by
  intro c hc
  unfold natDigitChars at hc
  by_cases hn : n = 0
  · rw [if_pos hn] at hc
    simp only [List.mem_singleton] at hc
    subst hc
    decide
  · rw [if_neg hn] at hc
    exact natDigitCharsGo_range n n [] (by simp) c hc

theorem formatTrackNo_braceFree (n : Int) : braceFree (formatTrackNo n) = true := by
  have hds := natDigitChars_range n.natAbs
  unfold formatTrackNo braceFree
  have hdigit : ∀ c ∈ natDigitChars n.natAbs, c ≠ lbrace ∧ c ≠ rbrace := by
    intro c hc
    have := hds c hc
    constructor <;> intro he <;> subst he <;> revert this <;> decide
  by_cases hn : n < 0
  · rw [if_pos hn]
    rw [show (String.mk ('-' :: List.replicate (3 - ((natDigitChars n.natAbs).length + 1)) '0'
      ++ natDigitChars n.natAbs)).data = '-' :: List.replicate
        (3 - ((natDigitChars n.natAbs).length + 1)) '0' ++ natDigitChars n.natAbs from rfl]
    rw [braceFreeL_iff]
    intro c hc
    rcases List.mem_cons.mp hc with he | hm
    · subst he
      decide
    · rcases List.mem_append.mp hm with h | h
      · have := List.eq_of_mem_replicate h
        subst this
        decide
      · exact hdigit c h
  · rw [if_neg hn]
    rw [show (String.mk (List.replicate (3 - (natDigitChars n.natAbs).length) '0'
      ++ natDigitChars n.natAbs)).data = List.replicate (3 - (natDigitChars n.natAbs).length) '0'
      ++ natDigitChars n.natAbs from rfl]
    rw [braceFreeL_iff]
    intro c hc
    rcases List.mem_append.mp hc with h | h
    · have := List.eq_of_mem_replicate h
      subst this
      decide
    · exact hdigit c h

theorem replaceAllL_mem (pat v : List Char) :
    ∀ (n : Nat) (s : List Char), s.length ≤ n →
      ∀ c ∈ replaceAllL pat v s, c ∈ s ∨ c ∈ v := by
  intro n
  induction n with
  | zero =>
    intro s hlen c hc
    have hs : s = [] := List.eq_nil_of_length_eq_zero (Nat.le_zero.mp hlen)
    subst hs
    rw [replaceAllL_nil] at hc
    simp at hc
  | succ m ih =>
    intro s hlen c hc
    cases s with
    | nil =>
      rw [replaceAllL_nil] at hc
      simp at hc
    | cons x rest =>
      rw [replaceAllL_cons] at hc
      split at hc
      next h =>
        rcases List.mem_append.mp hc with hcv | hcr
        · exact Or.inr hcv
        · have hplen : 0 < pat.length := List.length_pos.mpr h.1
          have hdl : ((x :: rest).drop pat.length).length ≤ m := by
            simp only [List.length_drop, List.length_cons]
            simp only [List.length_cons] at hlen
            omega
          rcases ih _ hdl c hcr with hl | hr
          · exact Or.inl ((List.drop_sublist _ _).subset hl)
          · exact Or.inr hr
      next h =>
        rcases List.mem_cons.mp hc with he | hm
        · exact Or.inl (he ▸ List.mem_cons_self x rest)
        · have hrl : rest.length ≤ m := by
            simp only [List.length_cons] at hlen
            omega
          rcases ih _ hrl c hm with hl | hr
          · exact Or.inl (List.mem_cons_of_mem x hl)
          · exact Or.inr hr

theorem stringReplaceAll_braceFree (x pat v : String) (hx : braceFree x = true)
    (hv : braceFree v = true) : braceFree (stringReplaceAll x pat v) = true := by
  show braceFreeL (replaceAllL pat.data v.data x.data) = true
  rw [braceFreeL_iff]
  intro c hc
  rcases replaceAllL_mem pat.data v.data x.data.length x.data (Nat.le_refl _) c hc with h | h
  · exact (braceFreeL_iff _).mp hx c h
  · exact (braceFreeL_iff _).mp hv c h

theorem foldl_stringReplaceAll_braceFree (pairs : List (String × String))
    (hpairs : ∀ pv ∈ pairs, braceFree pv.2 = true) :
    ∀ x : String, braceFree x = true →
      braceFree (pairs.foldl (fun acc pv => stringReplaceAll acc pv.1 pv.2) x) = true := by
  induction pairs with
  | nil => exact fun x hx => hx
  | cons pv rest ih =>
    intro x hx
    simp only [List.foldl_cons]
    exact ih (fun q hq => hpairs q (List.mem_cons_of_mem pv hq)) _
      (stringReplaceAll_braceFree x pv.1 pv.2 hx
        (hpairs pv (List.mem_cons_self pv rest)))

theorem trimSpaceDot_braceFree (s : String) (hs : braceFree s = true) :
    braceFree (trimSpaceDot s) = true := by
  apply braceFreeL_of_subset _ hs
  intro c hc
  show c ∈ s.data
  have h1 := (List.dropWhile_sublist _).subset (List.mem_reverse.mp hc)
  have h2 := (List.dropWhile_sublist _).subset (List.mem_reverse.mp h1)
  exact h2

theorem sanitizeFileName_braceFree (s : String) (hs : braceFree s = true) :
    braceFree (sanitizeFileName s) = true := by
  unfold sanitizeFileName
  by_cases h0 : s = ""
  · rw [if_pos h0]
    decide
  · rw [if_neg h0]
    apply trimSpaceDot_braceFree
    apply foldl_stringReplaceAll_braceFree _ (by decide) s hs

theorem subtitleExtLookup_braceFree (codecId : String) :
    braceFree (subtitleExtLookup codecId) = true := by
  unfold subtitleExtLookup
  cases hf : SubtitleExtensionByCodec.find? (fun p => p.1 = codecId) with
  | none => decide
  | some p =>
    have hmem := List.mem_of_find?_eq_some hf
    clear hf
    simp only [Option.map_some', Option.getD_some]
    revert hmem
    revert p
    decide

theorem mem_joinWithChar {sep : Char} {c : Char} :
    ∀ ps : List (List Char), c ∈ joinWithChar sep ps → c = sep ∨ ∃ p ∈ ps, c ∈ p := by
  intro ps
  induction ps with
  | nil =>
    intro hc
    simp [joinWithChar] at hc
  | cons p ps' ih =>
    cases ps' with
    | nil =>
      intro hc
      exact Or.inr ⟨p, List.mem_cons_self p [], hc⟩
    | cons q ps'' =>
      intro hc
      have hc2 : c ∈ p ++ sep :: joinWithChar sep (q :: ps'') := hc
      rcases List.mem_append.mp hc2 with h | h
      · exact Or.inr ⟨p, List.mem_cons_self p _, h⟩
      · rcases List.mem_cons.mp h with he | hm
        · exact Or.inl he
        · rcases ih hm with he | ⟨r, hr, hcr⟩
          · exact Or.inl he
          · exact Or.inr ⟨r, List.mem_cons_of_mem p hr, hcr⟩

theorem mem_splitOnCharL_subset (sep : Char) (l : List Char) :
    ∀ seg ∈ splitOnCharL sep l, ∀ c ∈ seg, c ∈ l := by
  induction l with
  | nil =>
    intro seg hseg c hc
    simp only [splitOnCharL, List.mem_singleton] at hseg
    subst hseg
    simp at hc
  | cons x rest ih =>
    intro seg hseg c hc
    unfold splitOnCharL at hseg
    by_cases hx : x = sep
    · rw [if_pos hx] at hseg
      rcases List.mem_cons.mp hseg with he | hm
      · subst he
        simp at hc
      · exact List.mem_cons_of_mem x (ih seg hm c hc)
    · rw [if_neg hx] at hseg
      cases h : splitOnCharL sep rest with
      | nil => exact absurd h (splitOnCharL_ne_nil sep rest)
      | cons s segs =>
        rw [h] at hseg
        rcases List.mem_cons.mp hseg with he | hm
        · subst he
          rcases List.mem_cons.mp hc with he2 | hm2
          · exact he2 ▸ List.mem_cons_self x rest
          · exact List.mem_cons_of_mem x
              (ih s (h ▸ List.mem_cons_self s segs) c hm2)
        · exact List.mem_cons_of_mem x (ih seg (h ▸ List.mem_cons_of_mem s hm) c hc)

theorem cleanupFileName_braceFree (s : String) (hs : braceFree s = true) :
    braceFree (cleanupFileName s) = true := by
  show braceFreeL (cleanupL s.data) = true
  rw [braceFreeL_iff]
  intro c hc
  rcases mem_joinWithChar _ hc with he | ⟨p, hp, hcp⟩
  · subst he
    decide
  · have hmem := List.mem_of_mem_filter hp
    exact (braceFreeL_iff _).mp hs c (mem_splitOnCharL_subset '.' s.data p hmem c hcp)

/-! ### The template substitution fold (claim C8) -/

theorem foldl_replace_tokens (pairs : List (String × String)) :
    (∀ pv ∈ pairs,
      (∃ w, braceFreeL w = true ∧ pv.1.data = lbrace :: w ++ [rbrace])
      ∧ braceFree pv.2 = true) →
    ∀ (x : String) (toks : List (List Char)), TokenInterleaving toks x.data →
      TokenInterleaving
        (pairs.foldl (fun ts pv => ts.filter (· ≠ pv.1.data)) toks)
        (pairs.foldl (fun acc pv => stringReplaceAll acc pv.1 pv.2) x).data := by
  induction pairs with
  | nil => exact fun _ x toks hx => hx
  | cons pv rest ih =>
    intro hpairs x toks hx
    simp only [List.foldl_cons]
    obtain ⟨⟨w, hw, hdecomp⟩, hv⟩ := hpairs pv (List.mem_cons_self pv rest)
    apply ih (fun q hq => hpairs q (List.mem_cons_of_mem pv hq))
    show TokenInterleaving (toks.filter (· ≠ pv.1.data))
      (replaceAllL pv.1.data pv.2.data x.data)
    exact tokenInterleaving_replaceAll pv.1.data pv.2.data w hdecomp hw hv hx

theorem tokenInterleaving_nonempty {ps : List (List Char)} {s : List Char}
    (h : TokenInterleaving ps s) (hps : ps ≠ []) : s ≠ [] := by
  cases h with
  | nil a ha => exact absurd rfl hps
  | cons a p ps2 rest ha hp hrest =>
    obtain ⟨w, hw, hpe⟩ := hp
    intro hcon
    rcases List.append_eq_nil.mp hcon with ⟨h1, -⟩
    rcases List.append_eq_nil.mp h1 with ⟨-, h2⟩
    rw [hpe] at h2
    exact absurd h2 (by simp)

/-! ### Claim C8: template round-trip leaves no braces -/

/-- C8 as stated is false: a template may contain every recognized
placeholder exactly once and still carry a stray brace, which survives
substitution and cleanup into the output. -/
theorem claim_C8_counterexample :
    (∀ t ∈ placeholderTokens,
      countOccur (⟨t⟩ : String)
        "\x7bbasename\x7d.\x7blanguage\x7d.\x7btrackno\x7d.\x7btrackname\x7d.\x7bforced\x7d.\x7bdefault\x7d.\x7bextension\x7d\x7b" = 1)
    ∧ braceFree (BuildFileNameFromTemplate "movie.mkv" (mkSubtitleTrack "eng" 1 "S_TEXT/UTF8")
        "\x7bbasename\x7d.\x7blanguage\x7d.\x7btrackno\x7d.\x7btrackname\x7d.\x7bforced\x7d.\x7bdefault\x7d.\x7bextension\x7d\x7b")
      = false := by
  constructor
  · decide
  · decide

/-- Claim C8, amended: when the template consists of the seven recognized
placeholders, each exactly once in any order, separated and surrounded by
brace-free text, and the input file name, track language and track name are
brace-free, the rendered output contains no brace characters.  (The
remaining substituted values — track number, forced/default markers and the
extension — are produced by the code and are always brace-free.) -/
theorem claim_C8_template_roundtrip_amended
    (inputFileName : String) (track : MKVTrack) (template : String)
    (toks : List (List Char)) (hperm : toks.Perm placeholderTokens)
    (hinter : TokenInterleaving toks template.data)
    (hin : braceFree inputFileName = true)
    (hlang : braceFree track.Properties.Language = true)
    (hname : braceFree track.Properties.TrackName = true) :
    braceFree (BuildFileNameFromTemplate inputFileName track template) = true := by
  have htoksne : toks ≠ [] := by
    intro h0
    have hl := hperm.length_eq
    rw [h0] at hl
    simp [placeholderTokens] at hl
  have htne : template ≠ "" := by
    intro h0
    apply tokenInterleaving_nonempty hinter htoksne
    rw [h0]
  simp only [BuildFileNameFromTemplate]
  rw [if_neg htne]
  apply cleanupFileName_braceFree
  have hbase : braceFree (trimSuffixStr (pathBase inputFileName)
      (pathExt (pathBase inputFileName))) = true :=
    trimSuffixStr_braceFree _ _ (pathBase_braceFree inputFileName hin)
  have hext : braceFree (if track.Properties.CodecId = "S_VOBSUB" then "sub"
      else if subtitleExtLookup track.Properties.CodecId = "" then "srt"
      else subtitleExtLookup track.Properties.CodecId) = true := by
    by_cases h1 : track.Properties.CodecId = "S_VOBSUB"
    · rw [if_pos h1]
      decide
    · rw [if_neg h1]
      by_cases h2 : subtitleExtLookup track.Properties.CodecId = ""
      · rw [if_pos h2]
        decide
      · rw [if_neg h2]
        exact subtitleExtLookup_braceFree _
  have hpairs : ∀ pv ∈ templateReplacements
      (trimSuffixStr (pathBase inputFileName) (pathExt (pathBase inputFileName))) track
      (formatTrackNo track.Properties.Number)
      (if track.Properties.CodecId = "S_VOBSUB" then "sub"
        else if subtitleExtLookup track.Properties.CodecId = "" then "srt"
        else subtitleExtLookup track.Properties.CodecId),
      (∃ w, braceFreeL w = true ∧ pv.1.data = lbrace :: w ++ [rbrace])
      ∧ braceFree pv.2 = true := by
    intro pv hpv
    simp only [templateReplacements, List.mem_cons, List.not_mem_nil, or_false] at hpv
    rcases hpv with h | h | h | h | h | h | h
    · subst h
      exact ⟨⟨("basename" : String).data, by decide, rfl⟩, hbase⟩
    · subst h
      exact ⟨⟨("language" : String).data, by decide, rfl⟩, hlang⟩
    · subst h
      exact ⟨⟨("trackno" : String).data, by decide, rfl⟩,
        formatTrackNo_braceFree track.Properties.Number⟩
    · subst h
      exact ⟨⟨("trackname" : String).data, by decide, rfl⟩,
        sanitizeFileName_braceFree _ hname⟩
    · subst h
      refine ⟨⟨("forced" : String).data, by decide, rfl⟩, ?_⟩
      by_cases hfo : track.Properties.Forced
      · rw [if_pos hfo]
        decide
      · rw [if_neg hfo]
        decide
    · subst h
      refine ⟨⟨("default" : String).data, by decide, rfl⟩, ?_⟩
      by_cases hde : track.Properties.Default
      · rw [if_pos hde]
        decide
      · rw [if_neg hde]
        decide
    · subst h
      exact ⟨⟨("extension" : String).data, by decide, rfl⟩, hext⟩
  have hfold := foldl_replace_tokens _ hpairs template toks hinter
  have hnil : (templateReplacements
      (trimSuffixStr (pathBase inputFileName) (pathExt (pathBase inputFileName))) track
      (formatTrackNo track.Properties.Number)
      (if track.Properties.CodecId = "S_VOBSUB" then "sub"
        else if subtitleExtLookup track.Properties.CodecId = "" then "srt"
        else subtitleExtLookup track.Properties.CodecId)).foldl
      (fun ts pv => ts.filter (· ≠ pv.1.data)) toks = [] := by
    simp only [templateReplacements, List.foldl_cons, List.foldl_nil]
    rw [List.eq_nil_iff_forall_not_mem]
    intro x hx
    simp only [List.mem_filter, ne_eq, decide_eq_true_eq] at hx
    obtain ⟨⟨⟨⟨⟨⟨⟨hxt, h1⟩, h2⟩, h3⟩, h4⟩, h5⟩, h6⟩, h7⟩ := hx
    have hxp : x ∈ placeholderTokens := hperm.mem_iff.mp hxt
    simp only [placeholderTokens, List.mem_cons, List.not_mem_nil, or_false] at hxp
    rcases hxp with he | he | he | he | he | he | he
    · exact h1 (he.trans rfl)
    · exact h2 (he.trans rfl)
    · exact h3 (he.trans rfl)
    · exact h4 (he.trans rfl)
    · exact h5 (he.trans rfl)
    · exact h6 (he.trans rfl)
    · exact h7 (he.trans rfl)
  rw [hnil] at hfold
  exact tokenInterleaving_nil_braceFree hfold

/-- Witness for amended C8: the default template (each placeholder once,
dot-separated) with brace-free inputs renders without braces. -/
theorem claim_C8_template_roundtrip_amended_witness :
    braceFree (BuildFileNameFromTemplate "movie.mkv" (mkSubtitleTrack "eng" 1 "S_TEXT/UTF8")
      DefaultOutputTemplate) = true := by
  have h0 : TokenInterleaving [] [] := .nil [] (by decide)
  have h7 : TokenInterleaving [tokExtension] (['.'] ++ tokExtension ++ []) :=
    .cons ['.'] tokExtension [] []
      (by decide) ⟨("extension" : String).data, by decide, by decide⟩ h0
  have h6 : TokenInterleaving [tokDefault, tokExtension]
      (['.'] ++ tokDefault ++ (['.'] ++ tokExtension ++ [])) :=
    .cons ['.'] tokDefault _ _
      (by decide) ⟨("default" : String).data, by decide, by decide⟩ h7
  have h5 : TokenInterleaving [tokForced, tokDefault, tokExtension]
      (['.'] ++ tokForced ++ (['.'] ++ tokDefault ++ (['.'] ++ tokExtension ++ []))) :=
    .cons ['.'] tokForced _ _
      (by decide) ⟨("forced" : String).data, by decide, by decide⟩ h6
  have h4 : TokenInterleaving [tokTrackname, tokForced, tokDefault, tokExtension]
      (['.'] ++ tokTrackname ++ (['.'] ++ tokForced ++ (['.'] ++ tokDefault ++
        (['.'] ++ tokExtension ++ [])))) :=
    .cons ['.'] tokTrackname _ _
      (by decide) ⟨("trackname" : String).data, by decide, by decide⟩ h5
  have h3 : TokenInterleaving [tokTrackno, tokTrackname, tokForced, tokDefault, tokExtension]
      (['.'] ++ tokTrackno ++ (['.'] ++ tokTrackname ++ (['.'] ++ tokForced ++
        (['.'] ++ tokDefault ++ (['.'] ++ tokExtension ++ []))))) :=
    .cons ['.'] tokTrackno _ _
      (by decide) ⟨("trackno" : String).data, by decide, by decide⟩ h4
  have h2 : TokenInterleaving
      [tokLanguage, tokTrackno, tokTrackname, tokForced, tokDefault, tokExtension]
      (['.'] ++ tokLanguage ++ (['.'] ++ tokTrackno ++ (['.'] ++ tokTrackname ++
        (['.'] ++ tokForced ++ (['.'] ++ tokDefault ++ (['.'] ++ tokExtension ++ [])))))) :=
    .cons ['.'] tokLanguage _ _
      (by decide) ⟨("language" : String).data, by decide, by decide⟩ h3
  have h1 : TokenInterleaving placeholderTokens
      ([] ++ tokBasename ++ (['.'] ++ tokLanguage ++ (['.'] ++ tokTrackno ++
        (['.'] ++ tokTrackname ++ (['.'] ++ tokForced ++ (['.'] ++ tokDefault ++
        (['.'] ++ tokExtension ++ []))))))) :=
    .cons [] tokBasename _ _
      (by decide) ⟨("basename" : String).data, by decide, by decide⟩ h2
  have heq : ([] ++ tokBasename ++ (['.'] ++ tokLanguage ++ (['.'] ++ tokTrackno ++
      (['.'] ++ tokTrackname ++ (['.'] ++ tokForced ++ (['.'] ++ tokDefault ++
      (['.'] ++ tokExtension ++ []))))))) = DefaultOutputTemplate.data := by decide
  exact claim_C8_template_roundtrip_amended "movie.mkv" (mkSubtitleTrack "eng" 1 "S_TEXT/UTF8")
    DefaultOutputTemplate placeholderTokens (List.Perm.refl _) (heq ▸ h1)
    (by decide) (by decide) (by decide)

end SubScalpel
